import Mathlib

/-!
# NeuroStreamer — `NativeDLL/MedicalImageProcessing.cpp`

A shallow embedding of the four exported operations of the native image
processing library (noise synthesis, separable Gaussian blur, histogram,
threshold) together with the static helpers they call.

Conventions of the embedding.

* `float` values are elements of a linearly ordered field `K` with a floor
  function; every definition is computable and can be run at `K = ℚ`, and
  every theorem holds at `K = ℝ`.  Rounding, infinities and NaN are outside
  the model.  The library function `expf` is a parameter of the blur.
* `int` values are elements of `ℤ`.  The integer scramble of `hash3` is
  computed modulo `2 ^ 32`; all other integer arithmetic (loop counters,
  buffer indices, the kernel length) is exact.
* A pointer is either `null` or a buffer holding a list of cells.  Every
  read and every write goes through `readAt` / `writeAt`, which fail on an
  index outside the buffer; an operation returns `none` exactly when one of
  its accesses fails, and otherwise the final contents of its output
  pointer.
* Definitions that follow the specification rather than the source are
  named as such in their comments: `specBin` (the bin formula), `convAxis`
  and `directConv` (a pass and the 3D convolution as operators on fields),
  `blurInOrder` (the passes of the source run in a chosen order), and the
  predicates `FilledTo` and `Holds` on buffers.
-/

namespace MedicalImageProcessing

/-! ## Memory and control -/

/-- A pointer argument: the null pointer or a buffer of cells. -/
inductive Ptr (α : Type) where
  | null : Ptr α
  | buf (cells : List α) : Ptr α
  deriving DecidableEq

/-- The read `cells[i]`, defined only inside the buffer. -/
def readAt {α : Type} (cells : List α) (i : Int) : Option α :=
  if 0 ≤ i then cells[i.toNat]? else none

/-- The write `cells[i] = v`, defined only inside the buffer. -/
def writeAt {α : Type} (cells : List α) (i : Int) (v : α) : Option (List α) :=
  if 0 ≤ i ∧ i.toNat < cells.length then some (cells.set i.toNat v) else none

/-- The loop `for (int i = lo; i < hi; i++) s = body(i, s);`. -/
def forRange {σ : Type} (lo hi : Int) (body : Int → σ → Option σ) (s : σ) : Option σ :=
  (List.range (hi - lo).toNat).foldlM (fun s (j : Nat) => body (lo + (j : Int)) s) s

/-- The loop nest `for z < depth, for y < height, for x < width` that stores
`voxel x y z` at `out[x + y * width + z * width * height]`. -/
def forVoxels {α : Type} (width height depth : Int)
    (voxel : Int → Int → Int → Option α) (out : List α) : Option (List α) :=
  forRange 0 depth (fun z out =>
    forRange 0 height (fun y out =>
      forRange 0 width (fun x out => do
        let value ← voxel x y z
        let index := x + y * width + z * width * height
        writeAt out index value) out) out) out

/-- The state of an output buffer during a fill in index order: `t` has the
length of `out`, holds `G j` in every cell `j < n`, and the cells of `out`
from `n` on. -/
def FilledTo {α : Type} (out : List α) (G : Int → α) (n : Int) (t : List α) : Prop :=
  t.length = out.length ∧ (∀ j : Nat, (j : Int) < n → t[j]? = some (G j)) ∧
    (∀ j : Nat, n ≤ (j : Int) → t[j]? = out[j]?)

section Ops

variable {K : Type} [LinearOrderedField K] [FloorRing K]

/-- The conversion `(int)v` of a float: truncation toward zero. -/
def cast_int (v : K) : Int := if 0 ≤ v then ⌊v⌋ else ⌈v⌉

/-! ## Threshold -/

/-- The body of the loop of `ApplyThreshold`. -/
def thresholdStep (inData : List K) (minThreshold maxThreshold : K)
    (i : Int) (outMask : List Nat) : Option (List Nat) := do
  let value ← readAt inData i
  writeAt outMask i (if value ≥ minThreshold ∧ value ≤ maxThreshold then 255 else 0)

/-- `ApplyThreshold(inData, outMask, size, minThreshold, maxThreshold)`. -/
def ApplyThreshold (inData : Ptr K) (outMask : Ptr Nat) (size : Int)
    (minThreshold maxThreshold : K) : Option (Ptr Nat) :=
  match inData, outMask with
  | .buf d, .buf m =>
    if size ≤ 0 then some (.buf m)
    else (forRange 0 size (thresholdStep d minThreshold maxThreshold) m).map Ptr.buf
  | _, out => some out

/-! ## Histogram -/

/-- The body of the counting loop of `CalculateHistogram`; `range` is
`maxVal - minVal`. -/
def histogramStep (data : List K) (bins : Int) (minVal maxVal range : K)
    (i : Int) (histogram : List Int) : Option (List Int) := do
  let value ← readAt data i
  if value ≥ minVal ∧ value ≤ maxVal then
    let bin := cast_int (((value - minVal) / range) * ((bins - 1 : Int) : K))
    let bin := max 0 (min (bins - 1) bin)
    let count ← readAt histogram bin
    writeAt histogram bin (count + 1)
  else
    some histogram

/-- `CalculateHistogram(data, size, histogram, bins, minVal, maxVal)`. -/
def CalculateHistogram (data : Ptr K) (size : Int) (histogram : Ptr Int) (bins : Int)
    (minVal maxVal : K) : Option (Ptr Int) :=
  match data, histogram with
  | .buf d, .buf h =>
    if size ≤ 0 ∨ bins ≤ 0 then some (.buf h)
    else do
      let h ← forRange 0 bins (fun i h => writeAt h i 0) h
      let range := maxVal - minVal
      if range ≤ 0 then some (.buf h)
      else
        let h ← forRange 0 size (histogramStep d bins minVal maxVal range) h
        some (.buf h)
  | _, out => some out

/-- The bin of a sample as the specification writes it:
`clamp(⌊(value - minVal) / (maxVal - minVal) · (bins - 1)⌋, 0, bins - 1)`. -/
def specBin (bins : Int) (minVal maxVal value : K) : Int :=
  max 0 (min (bins - 1) ⌊(value - minVal) / (maxVal - minVal) * ((bins : K) - 1)⌋)

/-! ## Gaussian blur -/

/-- The kernel length: `(int)(sigma * 3.0f) * 2 + 1`, raised to 3 when smaller. -/
def kernelSize (sigma : K) : Int :=
  let kernelSize := cast_int (sigma * 3) * 2 + 1
  if kernelSize < 3 then 3 else kernelSize

/-- The centre index `kernelSize / 2` (C integer division). -/
def halfKernel (sigma : K) : Int := Int.tdiv (kernelSize sigma) 2

/-- The weight `expf(-(x * x) / (2.0f * sigma * sigma))` at `x = (float)(i - halfKernel)`,
before normalisation. -/
def kernelWeight (expf : K → K) (sigma : K) (halfKernel i : Int) : K :=
  let x : K := ((i - halfKernel : Int) : K)
  expf (-(x * x) / (2 * sigma * sigma))

/-- The accumulator `sum` after the first kernel loop. -/
def kernelSum (expf : K → K) (sigma : K) : K :=
  ((List.range (kernelSize sigma).toNat).map
    (fun (i : Nat) => kernelWeight expf sigma (halfKernel sigma) (i : Int))).foldl (fun sum w => sum + w) 0

/-- The vector `kernel` after the normalisation loop. -/
def gaussianKernel (expf : K → K) (sigma : K) : List K :=
  (List.range (kernelSize sigma).toNat).map
    (fun (i : Nat) => kernelWeight expf sigma (halfKernel sigma) (i : Int) / kernelSum expf sigma)

/-- One voxel of the pass along X: the inner loop over `k`. -/
def blurX (src kernel : List K) (width height halfKernel : Int) (x y z : Int) : Option K :=
  forRange (-halfKernel) (halfKernel + 1) (fun k value => do
    let sx := max 0 (min (width - 1) (x + k))
    let idx := sx + y * width + z * width * height
    let s ← readAt src idx
    let w ← readAt kernel (k + halfKernel)
    some (value + s * w)) 0

/-- One voxel of the pass along Y. -/
def blurY (src kernel : List K) (width height halfKernel : Int) (x y z : Int) : Option K :=
  forRange (-halfKernel) (halfKernel + 1) (fun k value => do
    let sy := max 0 (min (height - 1) (y + k))
    let idx := x + sy * width + z * width * height
    let s ← readAt src idx
    let w ← readAt kernel (k + halfKernel)
    some (value + s * w)) 0

/-- One voxel of the pass along Z. -/
def blurZ (src kernel : List K) (width height depth halfKernel : Int) (x y z : Int) :
    Option K :=
  forRange (-halfKernel) (halfKernel + 1) (fun k value => do
    let sz := max 0 (min (depth - 1) (z + k))
    let idx := x + y * width + sz * width * height
    let s ← readAt src idx
    let w ← readAt kernel (k + halfKernel)
    some (value + s * w)) 0

/-- The call `std::copy(src, src + count, out)`. -/
def copyCells (src : List K) (count : Int) (out : List K) : Option (List K) :=
  forRange 0 count (fun i out => do
    let v ← readAt src i
    writeAt out i v) out

/-- `ApplyGaussianBlur3D(inData, outData, width, height, depth, sigma)`. -/
def ApplyGaussianBlur3D (expf : K → K) (inData outData : Ptr K) (width height depth : Int)
    (sigma : K) : Option (Ptr K) :=
  match inData, outData with
  | .buf src, .buf out =>
    if width ≤ 0 ∨ height ≤ 0 ∨ depth ≤ 0 then some (.buf out)
    else if sigma ≤ 0 then (copyCells src (width * height * depth) out).map Ptr.buf
    else do
      let halfKernel := halfKernel sigma
      let kernel := gaussianKernel expf sigma
      let total := width * height * depth
      let tempData := List.replicate total.toNat (0 : K)
      let tempData2 := List.replicate total.toNat (0 : K)
      let tempData ← forVoxels width height depth
        (blurX src kernel width height halfKernel) tempData
      let tempData2 ← forVoxels width height depth
        (blurY tempData kernel width height halfKernel) tempData2
      let out ← forVoxels width height depth
        (blurZ tempData2 kernel width height depth halfKernel) out
      some (.buf out)
  | _, out => some out

/-- The three axes of a volume. -/
inductive Axis where
  | X : Axis
  | Y : Axis
  | Z : Axis
  deriving DecidableEq

/-- One voxel of the pass along the axis `a`. -/
def blurAxis (a : Axis) (src kernel : List K) (width height depth halfKernel : Int) :
    Int → Int → Int → Option K :=
  match a with
  | .X => blurX src kernel width height halfKernel
  | .Y => blurY src kernel width height halfKernel
  | .Z => blurZ src kernel width height depth halfKernel

/-- The `sigma > 0` part of `ApplyGaussianBlur3D` with its three passes run
along the axes `a`, `b`, `c` in that order; the source runs X, Y, Z. -/
def blurInOrder (a b c : Axis) (expf : K → K) (src out : List K)
    (width height depth : Int) (sigma : K) : Option (List K) := do
  let halfKernel := halfKernel sigma
  let kernel := gaussianKernel expf sigma
  let total := width * height * depth
  let tempData := List.replicate total.toNat (0 : K)
  let tempData2 := List.replicate total.toNat (0 : K)
  let tempData ← forVoxels width height depth
    (blurAxis a src kernel width height depth halfKernel) tempData
  let tempData2 ← forVoxels width height depth
    (blurAxis b tempData kernel width height depth halfKernel) tempData2
  forVoxels width height depth
    (blurAxis c tempData2 kernel width height depth halfKernel) out

/-- The value of a buffer at voxel `(x, y, z)` (0 outside the buffer). -/
def fieldOf (cells : List K) (width height : Int) (x y z : Int) : K :=
  (readAt cells (x + y * width + z * width * height)).getD 0

/-- The weight `kernel[k + halfKernel]` of the tap at offset `k` (0 outside
the kernel). -/
def tapWeight (kernel : List K) (halfKernel k : Int) : K :=
  (readAt kernel (k + halfKernel)).getD 0

/-- One clamp-to-edge pass along the axis `a`, on fields: the sum over
`k ∈ [-half, half]` of the weight `w k` times the field at the voxel moved by
`k` along `a` and clamped to the volume. -/
def convAxis (a : Axis) (w : Int → K) (half width height depth : Int)
    (F : Int → Int → Int → K) (x y z : Int) : K :=
  ∑ k in Finset.Icc (-half) half,
    (match a with
      | .X => F (max 0 (min (width - 1) (x + k))) y z
      | .Y => F x (max 0 (min (height - 1) (y + k))) z
      | .Z => F x y (max 0 (min (depth - 1) (z + k)))) * w k

/-- The direct 3D convolution of a field: the triple sum over
`kx, ky, kz ∈ [-half, half]` of `w kx * w ky * w kz` times the field at the
clamped voxel. -/
def directConv (w : Int → K) (half width height depth : Int)
    (F : Int → Int → Int → K) (x y z : Int) : K :=
  ∑ kx in Finset.Icc (-half) half, ∑ ky in Finset.Icc (-half) half,
    ∑ kz in Finset.Icc (-half) half,
      w kx * w ky * w kz *
        F (max 0 (min (width - 1) (x + kx))) (max 0 (min (height - 1) (y + ky)))
          (max 0 (min (depth - 1) (z + kz)))

/-- A buffer holds the field `F` on the volume: the cell at the flat index of
every in-range voxel is `F x y z`. -/
def Holds (cells : List K) (width height depth : Int) (F : Int → Int → Int → K) : Prop :=
  ∀ x y z : Int, 0 ≤ x → x < width → 0 ≤ y → y < height → 0 ≤ z → z < depth →
    readAt cells (x + y * width + z * width * height) = some (F x y z)

/-! ## Noise synthesis -/

/-- The lattice hash `hash3(x, y, z)`.  The 32-bit words are represented by
their residues modulo `2 ^ 32`, on which `+`, `*`, `<<`, `^` and `&` act as
they do on two's complement `int`. -/
def hash3 (x y z : Int) : K :=
  let n : Nat := ((x + y * 57 + z * 997) % 4294967296).toNat
  let n : Nat := ((n <<< 13) % 4294967296) ^^^ n
  let m : Nat := ((n * (n * n * 15731 + 789221) + 1376312589) % 4294967296) &&& 0x7fffffff
  1 - (m : K) / 1073741824

/-- The scrambled word `n * (n * n * 15731 + 789221) + 1376312589` of `hash3`,
as its residue modulo `2 ^ 32`. -/
def hashWord (x y z : Int) : Nat :=
  let n : Nat := ((x + y * 57 + z * 997) % 4294967296).toNat
  let n : Nat := ((n <<< 13) % 4294967296) ^^^ n
  (n * (n * n * 15731 + 789221) + 1376312589) % 4294967296

/-- The interpolation `lerp1(a, b, t)`. -/
def lerp1 (a b t : K) : K := a + t * (b - a)

/-- The ease curve `smoothstep1(t)`. -/
def smoothstep1 (t : K) : K := t * t * (3 - 2 * t)

/-- The interpolator `perlin3D(x, y, z)`. -/
def perlin3D (x y z : K) : K :=
  let xi : Int := ⌊x⌋
  let yi : Int := ⌊y⌋
  let zi : Int := ⌊z⌋
  let xf := x - (xi : K)
  let yf := y - (yi : K)
  let zf := z - (zi : K)
  let u := smoothstep1 xf
  let v := smoothstep1 yf
  let w := smoothstep1 zf
  let c000 : K := hash3 xi yi zi
  let c100 : K := hash3 (xi + 1) yi zi
  let c010 : K := hash3 xi (yi + 1) zi
  let c110 : K := hash3 (xi + 1) (yi + 1) zi
  let c001 : K := hash3 xi yi (zi + 1)
  let c101 : K := hash3 (xi + 1) yi (zi + 1)
  let c011 : K := hash3 xi (yi + 1) (zi + 1)
  let c111 : K := hash3 (xi + 1) (yi + 1) (zi + 1)
  let x00 := lerp1 c000 c100 u
  let x10 := lerp1 c010 c110 u
  let x01 := lerp1 c001 c101 u
  let x11 := lerp1 c011 c111 u
  let y0 := lerp1 x00 x10 v
  let y1 := lerp1 x01 x11 v
  lerp1 y0 y1 w

/-- The four loop-carried floats of the octave loop. -/
structure Octave (K : Type) where
  total : K
  frequency : K
  amplitude : K
  maxValue : K

/-- The body of the octave loop at voxel `(x, y, z)`. -/
def octaveStep (width height depth : Int) (persistence : K) (x y z : Int)
    (s : Octave K) : Octave K :=
  { total := s.total + perlin3D ((x : K) * s.frequency / (width : K))
      ((y : K) * s.frequency / (height : K)) ((z : K) * s.frequency / (depth : K)) * s.amplitude
    maxValue := s.maxValue + s.amplitude
    amplitude := s.amplitude * persistence
    frequency := s.frequency * 2 }

/-- The loop `for (int i = 0; i < octaves; i++)` run from its initial state. -/
def octaveLoop (width height depth : Int) (scale : K) (octaves : Int) (persistence : K)
    (x y z : Int) : Octave K :=
  (List.range octaves.toNat).foldl
    (fun s _ => octaveStep width height depth persistence x y z s)
    { total := 0, frequency := scale, amplitude := 1, maxValue := 0 }

/-- The value stored for voxel `(x, y, z)`: `(total / maxValue + 1.0f) * 0.5f`. -/
def noiseVoxel (width height depth : Int) (scale : K) (octaves : Int) (persistence : K)
    (x y z : Int) : K :=
  let s := octaveLoop width height depth scale octaves persistence x y z
  (s.total / s.maxValue + 1) * (1 / 2)

/-- `GeneratePerlinNoise3D(outData, width, height, depth, scale, octaves, persistence)`. -/
def GeneratePerlinNoise3D (outData : Ptr K) (width height depth : Int) (scale : K)
    (octaves : Int) (persistence : K) : Option (Ptr K) :=
  match outData with
  | .buf out =>
    if width ≤ 0 ∨ height ≤ 0 ∨ depth ≤ 0 ∨ octaves ≤ 0 then some (.buf out)
    else (forVoxels width height depth
      (fun x y z => some (noiseVoxel width height depth scale octaves persistence x y z))
      out).map Ptr.buf
  | .null => some .null

end Ops

/-! ## Loops and buffer accesses -/

/-- Invariant rule for a counted loop, by the number of iterations run. -/
theorem forRange_steps {σ : Type} (Inv : Int → σ → Prop) (lo : Int)
    (body : Int → σ → Option σ) (s : σ) (h0 : Inv lo s) (n : Nat)
    (hstep : ∀ (j : Nat) (t : σ), j < n → Inv (lo + j) t →
      ∃ t', body (lo + j) t = some t' ∧ Inv (lo + j + 1) t') :
    ∃ s', (List.range n).foldlM (fun s (j : Nat) => body (lo + (j : Int)) s) s = some s' ∧
      Inv (lo + n) s' := by
  induction n with
  | zero => exact ⟨s, by simp, by simpa using h0⟩
  | succ n ih =>
    obtain ⟨t, ht, hInv⟩ := ih (fun j t hj => hstep j t (Nat.lt_succ_of_lt hj))
    obtain ⟨t', ht', hInv'⟩ := hstep n t (Nat.lt_succ_self n) hInv
    refine ⟨t', ?_, ?_⟩
    · rw [List.range_succ, List.foldlM_append, ht]
      simp [ht']
    · have : lo + ((n + 1 : Nat) : Int) = lo + n + 1 := by push_cast; ring
      rw [this]; exact hInv'

/-- Invariant rule for `forRange`: an invariant that holds on entry and is
carried by every iteration holds on exit, and the loop runs to its end. -/
theorem forRange_inv {σ : Type} (Inv : Int → σ → Prop) (lo hi : Int)
    (body : Int → σ → Option σ) (s : σ) (hle : lo ≤ hi) (h0 : Inv lo s)
    (hstep : ∀ (i : Int) (t : σ), lo ≤ i → i < hi → Inv i t →
      ∃ t', body i t = some t' ∧ Inv (i + 1) t') :
    ∃ s', forRange lo hi body s = some s' ∧ Inv hi s' := by
  have hn : lo + (((hi - lo).toNat : Nat) : Int) = hi := by
    rw [Int.toNat_of_nonneg (by omega)]; ring
  have := forRange_steps Inv lo body s h0 (hi - lo).toNat (fun j t hj hI =>
    hstep (lo + j) t (by omega) (by omega) hI)
  rw [hn] at this
  exact this

/-- A loop whose bound is not above its start runs no iteration. -/
theorem forRange_empty {σ : Type} (lo hi : Int) (body : Int → σ → Option σ) (s : σ)
    (h : hi ≤ lo) : forRange lo hi body s = some s := by
  have : (hi - lo).toNat = 0 := by omega
  simp [forRange, this]

theorem readAt_natCast {α : Type} (cells : List α) (i : Nat) :
    readAt cells (i : Int) = cells[i]? := by
  simp [readAt]

theorem writeAt_natCast {α : Type} (cells : List α) (i : Nat) (v : α)
    (h : i < cells.length) : writeAt cells (i : Int) v = some (cells.set i v) := by
  simp [writeAt, h]

theorem readAt_of_nonneg {α : Type} (cells : List α) (i : Int) (h : 0 ≤ i) :
    readAt cells i = cells[i.toNat]? := by
  simp [readAt, h]

theorem writeAt_of_lt {α : Type} (cells : List α) (i : Int) (v : α) (h0 : 0 ≤ i)
    (h : i.toNat < cells.length) : writeAt cells i v = some (cells.set i.toNat v) := by
  simp [writeAt, h0, h]

/-! ## Threshold -/

/-- C1. On non-null buffers with `size > 0`, `ApplyThreshold` returns, and
afterwards `outMask[i]` is 255 when `minThreshold ≤ inData[i] ≤ maxThreshold`
and 0 otherwise, for every `i < size`; the mask keeps its length and its
cells from `size` on. -/
theorem ApplyThreshold_exact {K : Type} [LinearOrderedField K] (d : List K) (m : List Nat)
    (size : Int) (minThreshold maxThreshold : K) (hsize : 0 < size)
    (hd : (d.length : Int) = size) (hm : size ≤ (m.length : Int)) :
    ∃ m', ApplyThreshold (.buf d) (.buf m) size minThreshold maxThreshold = some (.buf m') ∧
      m'.length = m.length ∧
      (∀ (i : Nat) (hi : i < d.length), m'[i]? =
        some (if minThreshold ≤ d[i] ∧ d[i] ≤ maxThreshold then 255 else 0)) ∧
      (∀ i : Nat, d.length ≤ i → m'[i]? = m[i]?) := by
  obtain ⟨m', hrun, hlen, hlow, hhigh⟩ := forRange_inv
    (fun i (t : List Nat) => t.length = m.length ∧
      (∀ (j : Nat) (hj : j < d.length), (j : Int) < i → t[j]? =
        some (if minThreshold ≤ d[j] ∧ d[j] ≤ maxThreshold then 255 else 0)) ∧
      (∀ j : Nat, i ≤ (j : Int) → t[j]? = m[j]?))
    0 size (thresholdStep d minThreshold maxThreshold) m hsize.le
    ⟨rfl, fun j _ hj => absurd hj (by omega), fun _ _ => rfl⟩
    (by
      rintro i t h0 hlt ⟨hlen, hlow, hhigh⟩
      obtain ⟨n, rfl⟩ := Int.eq_ofNat_of_zero_le h0
      have hnd : n < d.length := by omega
      have hnt : n < t.length := by omega
      refine ⟨t.set n (if minThreshold ≤ d[n] ∧ d[n] ≤ maxThreshold then 255 else 0),
        ?_, by simpa using hlen, ?_, ?_⟩
      · simp [thresholdStep, readAt_natCast, List.getElem?_eq_getElem hnd,
          writeAt_natCast _ _ _ hnt]
      · intro j hj hlt'
        by_cases hjn : j = n
        · subst hjn; simp [List.getElem?_set_self hnt]
        · rw [List.getElem?_set_ne (Ne.symm hjn)]
          exact hlow j hj (by omega)
      · intro j hj
        rw [List.getElem?_set_ne (by omega)]
        exact hhigh j (by omega))
  refine ⟨m', ?_, hlen, fun i hi => hlow i hi (by omega), fun i hi => hhigh i (by omega)⟩
  simp [ApplyThreshold, not_le.mpr hsize, hrun]

/-- The threshold theorem at the input `[-1, 0, 0.5, 1, 2]` with thresholds 0
and 1: the mask becomes `[0, 255, 255, 255, 0]`. -/
theorem ApplyThreshold_exact_witness :
    ApplyThreshold (.buf [-1, 0, 1 / 2, 1, 2] : Ptr ℚ) (.buf [7, 7, 7, 7, 7]) 5 0 1 =
      some (.buf [0, 255, 255, 255, 0]) := by
  obtain ⟨m', hrun, -, hlow, hhigh⟩ :=
    ApplyThreshold_exact ([-1, 0, 1 / 2, 1, 2] : List ℚ) [7, 7, 7, 7, 7] 5 0 1
      (by decide) (by rfl) (by simp)
  have hm' : m' = [0, 255, 255, 255, 0] := by
    apply List.ext_getElem?
    intro i
    by_cases hi : i < 5
    · rw [hlow i (by simpa using hi)]
      interval_cases i <;> norm_num
    · rw [hhigh i (by simpa using hi)]
      have h5 : 5 ≤ i := by omega
      simp [List.getElem?_eq_none, h5]
  rw [hrun, hm']

/-! ## Histogram -/

/-- The zeroing loop of `CalculateHistogram`. -/
theorem histogram_zeroed (h : List Int) (bins : Int) (hbins : 0 < bins)
    (hh : bins ≤ (h.length : Int)) :
    ∃ z, forRange 0 bins (fun i h => writeAt h i 0) h = some z ∧ z.length = h.length ∧
      (∀ b : Nat, (b : Int) < bins → z[b]? = some 0) ∧
      (∀ b : Nat, bins ≤ (b : Int) → z[b]? = h[b]?) := by
  refine forRange_inv
    (fun i (t : List Int) => t.length = h.length ∧
      (∀ b : Nat, (b : Int) < i → t[b]? = some 0) ∧
      (∀ b : Nat, i ≤ (b : Int) → t[b]? = h[b]?))
    0 bins _ h hbins.le ⟨rfl, fun b hb => absurd hb (by omega), fun _ _ => rfl⟩ ?_
  rintro i t h0 hlt ⟨hlen, hlow, hhigh⟩
  obtain ⟨n, rfl⟩ := Int.eq_ofNat_of_zero_le h0
  have hnt : n < t.length := by omega
  refine ⟨t.set n 0, writeAt_natCast _ _ _ hnt, by simpa using hlen, ?_, ?_⟩
  · intro b hb
    by_cases hbn : b = n
    · subst hbn; exact List.getElem?_set_self hnt
    · rw [List.getElem?_set_ne (Ne.symm hbn)]
      exact hlow b (by omega)
  · intro b hb
    rw [List.getElem?_set_ne (by omega)]
    exact hhigh b (by omega)


/-- The scaled position of an in-range sample lies in `[0, bins - 1]`. -/
theorem scaled_mem {K : Type} [LinearOrderedField K] (bins : Int) (minVal maxVal v : K) (hbins : 1 ≤ bins)
    (hlt : minVal < maxVal) (h1 : minVal ≤ v) (h2 : v ≤ maxVal) :
    0 ≤ (v - minVal) / (maxVal - minVal) * ((bins - 1 : Int) : K) ∧
      (v - minVal) / (maxVal - minVal) * ((bins - 1 : Int) : K) ≤ ((bins - 1 : Int) : K) := by
  have hr : 0 < maxVal - minVal := sub_pos.mpr hlt
  have hq0 : 0 ≤ (v - minVal) / (maxVal - minVal) := div_nonneg (sub_nonneg.mpr h1) hr.le
  have hq1 : (v - minVal) / (maxVal - minVal) ≤ 1 := (div_le_one hr).mpr (by linarith)
  have hb : (0 : K) ≤ ((bins - 1 : Int) : K) := by exact_mod_cast (by omega : (0 : Int) ≤ bins - 1)
  exact ⟨mul_nonneg hq0 hb, by nlinarith⟩

/-- On an in-range sample the bin computed by the code (truncating cast, then
clamp) is the bin of the specification, and it is a valid bin index. -/
theorem code_bin_eq {K : Type} [LinearOrderedField K] [FloorRing K] (bins : Int) (minVal maxVal v : K) (hbins : 1 ≤ bins)
    (hlt : minVal < maxVal) (h1 : minVal ≤ v) (h2 : v ≤ maxVal) :
    max 0 (min (bins - 1)
      (cast_int ((v - minVal) / (maxVal - minVal) * ((bins - 1 : Int) : K)))) =
      specBin bins minVal maxVal v ∧
    0 ≤ specBin bins minVal maxVal v ∧ specBin bins minVal maxVal v < bins := by
  obtain ⟨ha0, ha1⟩ := scaled_mem bins minVal maxVal v hbins hlt h1 h2
  have hcast : ((bins - 1 : Int) : K) = (bins : K) - 1 := by push_cast; ring
  refine ⟨?_, ?_, ?_⟩
  · rw [hcast] at ha0
    simp only [cast_int, specBin, hcast, if_pos ha0]
  · exact le_max_left _ _
  · have : min (bins - 1) ⌊(v - minVal) / (maxVal - minVal) * ((bins : K) - 1)⌋ ≤ bins - 1 :=
      min_le_left _ _
    unfold specBin
    rw [max_lt_iff]
    omega


/-- One iteration of the counting loop on an in-range sample: the cell of the
sample's bin is incremented. -/
theorem histogramStep_in {K : Type} [LinearOrderedField K] [FloorRing K] (d : List K)
    (t : List Int) (bins : Int) (minVal maxVal : K) (n : Nat) (hn : n < d.length)
    (hbins : 1 ≤ bins) (hlt : minVal < maxVal) (h1 : minVal ≤ d[n]) (h2 : d[n] ≤ maxVal)
    (c : Int) (hc : t[(specBin bins minVal maxVal d[n]).toNat]? = some c) :
    histogramStep d bins minVal maxVal (maxVal - minVal) (n : Int) t =
      some (t.set (specBin bins minVal maxVal d[n]).toNat (c + 1)) := by
  obtain ⟨hcode, hs0, -⟩ := code_bin_eq bins minVal maxVal d[n] hbins hlt h1 h2
  have hb : (specBin bins minVal maxVal d[n]).toNat < t.length := by
    by_contra h
    rw [List.getElem?_eq_none (not_lt.mp h)] at hc
    exact Option.noConfusion hc
  simp only [histogramStep, readAt_natCast, List.getElem?_eq_getElem hn, Option.bind_eq_bind,
    Option.some_bind, ge_iff_le, h1, h2, and_self, if_true, hcode, readAt_of_nonneg _ _ hs0,
    hc, writeAt_of_lt _ _ _ hs0 hb]

/-- One iteration of the counting loop on a sample outside `[minVal, maxVal]`:
nothing is written. -/
theorem histogramStep_out {K : Type} [LinearOrderedField K] [FloorRing K] (d : List K)
    (t : List Int) (bins : Int) (minVal maxVal range : K) (n : Nat) (hn : n < d.length)
    (h : ¬ (minVal ≤ d[n] ∧ d[n] ≤ maxVal)) :
    histogramStep d bins minVal maxVal range (n : Int) t = some t := by
  simp only [histogramStep, readAt_natCast, List.getElem?_eq_getElem hn, Option.bind_eq_bind,
    Option.some_bind, ge_iff_le, h, if_false]


/-- The counting loop of `CalculateHistogram` from any histogram state `z`:
cell `b` grows by the number of in-range samples whose bin is `b`. -/
theorem histogram_counted {K : Type} [LinearOrderedField K] [FloorRing K] (d : List K)
    (z : List Int) (bins : Int) (minVal maxVal : K) (hbins : 1 ≤ bins)
    (hlt : minVal < maxVal) (hz : bins ≤ (z.length : Int)) :
    ∃ t, forRange 0 (d.length : Int) (histogramStep d bins minVal maxVal (maxVal - minVal)) z
        = some t ∧ t.length = z.length ∧
      ∀ (b : Nat) (c : Int), z[b]? = some c → t[b]? = some (c + ((d.countP (fun v =>
        decide (minVal ≤ v ∧ v ≤ maxVal ∧ specBin bins minVal maxVal v = (b : Int))) : Nat) :
          Int)) := by
  obtain ⟨t, hrun, hlen, hcount⟩ := forRange_inv
    (fun i (t : List Int) => t.length = z.length ∧
      ∀ (b : Nat) (c : Int), z[b]? = some c →
        t[b]? = some (c + (((d.take i.toNat).countP (fun v =>
          decide (minVal ≤ v ∧ v ≤ maxVal ∧ specBin bins minVal maxVal v = (b : Int))) : Nat) :
            Int)))
    0 (d.length : Int) (histogramStep d bins minVal maxVal (maxVal - minVal)) z
    (Int.natCast_nonneg _) ⟨rfl, fun b c hc => by simp [hc]⟩
    (by
      rintro i t h0 hi ⟨hlen, hcount⟩
      obtain ⟨n, rfl⟩ := Int.eq_ofNat_of_zero_le h0
      have hn : n < d.length := by omega
      have htake : List.take ((n : Int) + 1).toNat d = List.take n d ++ [d[n]] := by
        have : ((n : Int) + 1).toNat = n + 1 := by omega
        rw [this, List.take_succ, List.getElem?_eq_getElem hn]; rfl
      simp only [Int.toNat_natCast] at hcount
      by_cases hv : minVal ≤ d[n] ∧ d[n] ≤ maxVal
      · obtain ⟨-, hs0, hs1⟩ := code_bin_eq bins minVal maxVal d[n] hbins hlt hv.1 hv.2
        have hb0 : (specBin bins minVal maxVal d[n]).toNat < z.length := by omega
        obtain ⟨c0, hc0⟩ : ∃ c0, z[(specBin bins minVal maxVal d[n]).toNat]? = some c0 :=
          ⟨_, List.getElem?_eq_getElem hb0⟩
        refine ⟨_, histogramStep_in d t bins minVal maxVal n hn hbins hlt hv.1 hv.2 _
          (hcount _ c0 hc0), by simpa using hlen, fun b c hc => ?_⟩
        rw [htake, List.countP_append]
        by_cases hbs : (specBin bins minVal maxVal d[n]).toNat = b
        · subst hbs
          have hone : List.countP (fun v => decide (minVal ≤ v ∧ v ≤ maxVal ∧
              specBin bins minVal maxVal v = ((specBin bins minVal maxVal d[n]).toNat : Int)))
              [d[n]] = 1 := by
            simp [hv, Int.toNat_of_nonneg hs0]
          have hcc : c0 = c := by
            rw [hc0, Option.some.injEq] at hc; exact hc
          rw [List.getElem?_set, if_pos rfl, if_pos (by omega), hone, hcc]
          push_cast
          ring_nf
        · have hsb : specBin bins minVal maxVal d[n] ≠ (b : Int) := by omega
          rw [List.getElem?_set_ne hbs, hcount b c hc]
          simp [hsb]
      · refine ⟨t, histogramStep_out d t bins minVal maxVal _ n hn hv, hlen, fun b c hc => ?_⟩
        rw [htake, List.countP_append, hcount b c hc]
        have : ¬ (minVal ≤ d[n] ∧ d[n] ≤ maxVal ∧ specBin bins minVal maxVal d[n] = (b : Int)) :=
          fun h => hv ⟨h.1, h.2.1⟩
        simp [this])
  refine ⟨t, hrun, hlen, fun b c hc => ?_⟩
  have := hcount b c hc
  simpa using this


/-- The run of `CalculateHistogram` on a proper interval: zeroing, then counting. -/
theorem CalculateHistogram_run {K : Type} [LinearOrderedField K] [FloorRing K] (d : List K)
    (h : List Int) (size bins : Int) (minVal maxVal : K) (hsize : 0 < size)
    (hd : (d.length : Int) = size) (hbins : 1 ≤ bins) (hh : bins ≤ (h.length : Int))
    (hlt : minVal < maxVal) :
    ∃ h', CalculateHistogram (.buf d) size (.buf h) bins minVal maxVal = some (.buf h') ∧
      h'.length = h.length ∧
      (∀ b : Nat, (b : Int) < bins → h'[b]? = some ((d.countP (fun v =>
        decide (minVal ≤ v ∧ v ≤ maxVal ∧ specBin bins minVal maxVal v = (b : Int))) : Nat) :
          Int)) ∧
      (∀ b : Nat, bins ≤ (b : Int) → h'[b]? = h[b]?) := by
  obtain ⟨z, hz, hzlen, hzlow, hzhigh⟩ := histogram_zeroed h bins (by omega) hh
  obtain ⟨t, ht, htlen, htcount⟩ := histogram_counted d z bins minVal maxVal hbins hlt
    (by omega)
  refine ⟨t, ?_, by omega, fun b hb => ?_, fun b hb => ?_⟩
  · have hr : ¬ (maxVal - minVal ≤ 0) := not_le.mpr (sub_pos.mpr hlt)
    have hg : ¬ (size ≤ 0 ∨ bins ≤ 0) := by omega
    rw [hd] at ht
    simp [CalculateHistogram, hg, hz, hr, ht]
  · rw [htcount b 0 (hzlow b hb)]; simp
  · rw [← hzhigh b hb]
    by_cases hbl : b < z.length
    · rw [htcount b _ (List.getElem?_eq_getElem hbl), List.getElem?_eq_getElem hbl]
      have : List.countP (fun v => decide (minVal ≤ v ∧ v ≤ maxVal ∧
          specBin bins minVal maxVal v = (b : Int))) d = 0 := by
        rw [List.countP_eq_zero]
        intro v _
        simp only [decide_eq_true_eq, not_and]
        intro h1 h2 h3
        have := (code_bin_eq bins minVal maxVal v hbins hlt h1 h2).2.2
        omega
      rw [this]; simp
    · rw [List.getElem?_eq_none (by omega), List.getElem?_eq_none (by omega)]

/-- The sum of the first `B` cells of a list whose cells are given by `f`. -/
theorem sum_take_cells {M : Type} [AddCommMonoid M] (l : List M) (f : Nat → M) (B : Nat)
    (hl : ∀ b : Nat, b < B → l[b]? = some (f b)) :
    (l.take B).sum = ∑ b in Finset.range B, f b := by
  induction B with
  | zero => simp
  | succ B ih =>
    have hB := hl B (Nat.lt_succ_self B)
    have hlt : B < l.length := by
      by_contra h
      rw [List.getElem?_eq_none (not_lt.mp h)] at hB
      exact Option.noConfusion hB
    rw [List.getElem?_eq_getElem hlt, Option.some.injEq] at hB
    rw [List.sum_take_succ l B hlt, Finset.sum_range_succ, hB,
      ih (fun b hb => hl b (Nat.lt_succ_of_lt hb))]

/-- The bins partition the in-range samples: the per-bin counts add up to the
number of samples in `[minVal, maxVal]`. -/
theorem bins_partition {K : Type} [LinearOrderedField K] [FloorRing K] (d : List K)
    (bins : Int) (minVal maxVal : K) (hbins : 1 ≤ bins) (hlt : minVal < maxVal) :
    ∑ b in Finset.range bins.toNat, d.countP (fun v =>
        decide (minVal ≤ v ∧ v ≤ maxVal ∧ specBin bins minVal maxVal v = (b : Int))) =
      d.countP (fun v => decide (minVal ≤ v ∧ v ≤ maxVal)) := by
  induction d with
  | nil => simp
  | cons a l ih =>
    simp only [List.countP_cons, Finset.sum_add_distrib, ih]
    congr 1
    by_cases hv : minVal ≤ a ∧ a ≤ maxVal
    · obtain ⟨-, hs0, hs1⟩ := code_bin_eq bins minVal maxVal a hbins hlt hv.1 hv.2
      rw [Finset.sum_eq_single (specBin bins minVal maxVal a).toNat]
      · simp [hv, Int.toNat_of_nonneg hs0]
      · intro b _ hb
        have : specBin bins minVal maxVal a ≠ (b : Int) := by omega
        simp [this]
      · intro hnot
        exact absurd (Finset.mem_range.mpr (by omega)) hnot
    · have : ∀ b : Nat, ¬ (minVal ≤ a ∧ a ≤ maxVal ∧ specBin bins minVal maxVal a = (b : Int)) :=
        fun b h => hv ⟨h.1, h.2.1⟩
      simp [this, hv]

/-- C2. Histogram conservation: with `size > 0`, `bins ≥ 1` and
`minVal < maxVal`, whatever the histogram held before, `CalculateHistogram`
returns and the sum of `histogram[0 .. bins-1]` is the number of samples `v`
with `minVal ≤ v ≤ maxVal`; an iteration on a sample outside the interval
writes nothing. -/
theorem CalculateHistogram_conservation {K : Type} [LinearOrderedField K] [FloorRing K]
    (d : List K) (h : List Int) (size bins : Int) (minVal maxVal : K) (hsize : 0 < size)
    (hd : (d.length : Int) = size) (hbins : 1 ≤ bins) (hh : bins ≤ (h.length : Int))
    (hlt : minVal < maxVal) :
    (∃ h', CalculateHistogram (.buf d) size (.buf h) bins minVal maxVal = some (.buf h') ∧
      (h'.take bins.toNat).sum =
        ((d.countP (fun v => decide (minVal ≤ v ∧ v ≤ maxVal)) : Nat) : Int)) ∧
    (∀ (n : Nat) (hn : n < d.length), ¬ (minVal ≤ d[n] ∧ d[n] ≤ maxVal) →
      ∀ t : List Int, histogramStep d bins minVal maxVal (maxVal - minVal) (n : Int) t = some t) := by
  refine ⟨?_, fun n hn hv t => histogramStep_out d t bins minVal maxVal _ n hn hv⟩
  obtain ⟨h', hrun, -, hcells, -⟩ :=
    CalculateHistogram_run d h size bins minVal maxVal hsize hd hbins hh hlt
  refine ⟨h', hrun, ?_⟩
  rw [sum_take_cells h' _ bins.toNat (fun b hb => hcells b (by omega)),
    ← bins_partition d bins minVal maxVal hbins hlt]
  push_cast
  rfl

/-- The conservation theorem on 100 evenly spread samples of `[0, 10]` with
10 bins: the bins sum to 100. -/
theorem CalculateHistogram_conservation_witness :
    ∃ h', CalculateHistogram
        (.buf ((List.range 100).map (fun i : Nat => (i : ℚ) * 10 / 99)) : Ptr ℚ) 100
        (.buf (List.replicate 10 7)) 10 0 10 = some (.buf h') ∧
      (h'.take 10).sum = 100 := by
  obtain ⟨⟨h', hrun, hsum⟩, -⟩ := CalculateHistogram_conservation
    ((List.range 100).map (fun i : Nat => (i : ℚ) * 10 / 99)) (List.replicate 10 7)
    100 10 0 10 (by decide) (by simp) (by decide) (by simp) (by norm_num)
  refine ⟨h', hrun, ?_⟩
  have hcount : ((List.range 100).map (fun i : Nat => (i : ℚ) * 10 / 99)).countP
      (fun v => decide ((0 : ℚ) ≤ v ∧ v ≤ 10)) = 100 := by
    rw [List.countP_eq_length.mpr]
    · simp
    · intro v hv
      simp only [List.mem_map, List.mem_range] at hv
      obtain ⟨i, hi, rfl⟩ := hv
      have h1 : (0 : ℚ) ≤ (i : ℚ) := Nat.cast_nonneg i
      have h2 : (i : ℚ) ≤ 99 := by exact_mod_cast (by omega : i ≤ 99)
      simp only [decide_eq_true_eq]
      constructor
      · positivity
      · rw [div_le_iff₀ (by norm_num)]; linarith
  have h10 : (10 : Int).toNat = 10 := rfl
  rw [h10, hcount] at hsum
  exact hsum

/-- The bin of `maxVal` is the last one. -/
theorem specBin_maxVal {K : Type} [LinearOrderedField K] [FloorRing K] (bins : Int)
    (minVal maxVal : K) (hbins : 1 ≤ bins) (hlt : minVal < maxVal) :
    specBin bins minVal maxVal maxVal = bins - 1 := by
  have hr : maxVal - minVal ≠ 0 := (sub_pos.mpr hlt).ne'
  have : (maxVal - minVal) / (maxVal - minVal) * ((bins : K) - 1) = ((bins - 1 : Int) : K) := by
    rw [div_self hr]; push_cast; ring
  rw [specBin, this, Int.floor_intCast, min_self]
  exact max_eq_right (by omega)

/-- C3. With `size > 0`, `bins ≥ 1` and `minVal < maxVal`, the iteration on a
sample equal to `maxVal` increments `histogram[bins - 1]`, and after the call
that cell holds at least the number of samples equal to `maxVal`. -/
theorem CalculateHistogram_maxVal_last_bin {K : Type} [LinearOrderedField K] [FloorRing K]
    (d : List K) (h : List Int) (size bins : Int) (minVal maxVal : K) (hsize : 0 < size)
    (hd : (d.length : Int) = size) (hbins : 1 ≤ bins) (hh : bins ≤ (h.length : Int))
    (hlt : minVal < maxVal) :
    (∀ (n : Nat) (hn : n < d.length), d[n] = maxVal → ∀ (t : List Int) (c : Int),
      t[(bins - 1).toNat]? = some c →
        histogramStep d bins minVal maxVal (maxVal - minVal) (n : Int) t =
          some (t.set (bins - 1).toNat (c + 1))) ∧
    ∃ h' c, CalculateHistogram (.buf d) size (.buf h) bins minVal maxVal = some (.buf h') ∧
      h'[(bins - 1).toNat]? = some c ∧
      ((d.countP (fun v => decide (v = maxVal)) : Nat) : Int) ≤ c := by
  have hlast := specBin_maxVal bins minVal maxVal hbins hlt
  constructor
  · intro n hn hv t c hc
    have := histogramStep_in d t bins minVal maxVal n hn hbins hlt (hv ▸ hlt.le) hv.le c
      (by rw [hv, hlast]; exact hc)
    rw [this, hv, hlast]
  · obtain ⟨h', hrun, -, hcells, -⟩ :=
      CalculateHistogram_run d h size bins minVal maxVal hsize hd hbins hh hlt
    refine ⟨h', _, hrun, hcells (bins - 1).toNat (by omega), ?_⟩
    apply Nat.cast_le.mpr
    apply List.countP_mono_left
    intro v _ hv
    simp only [decide_eq_true_eq] at hv ⊢
    subst hv
    exact ⟨hlt.le, le_rfl, by rw [hlast]; omega⟩

/-- The last-bin theorem on the samples `[0, 10, 5, 10]` with 10 bins over
`[0, 10]`: cell 9 ends with a count of at least 2. -/
theorem CalculateHistogram_maxVal_last_bin_witness :
    ∃ h' c, CalculateHistogram (.buf [0, 10, 5, 10] : Ptr ℚ) 4 (.buf (List.replicate 10 7))
        10 0 10 = some (.buf h') ∧ h'[9]? = some c ∧ 2 ≤ c := by
  obtain ⟨-, h', c, hrun, hcell, hc⟩ := CalculateHistogram_maxVal_last_bin
    ([0, 10, 5, 10] : List ℚ) (List.replicate 10 7) 4 10 0 10
    (by decide) (by rfl) (by decide) (by simp) (by norm_num)
  have hcount : ([0, 10, 5, 10] : List ℚ).countP (fun v => decide (v = 10)) = 2 := by
    decide!
  rw [hcount] at hc
  exact ⟨h', c, hrun, hcell, hc⟩

/-- C4. Per-bin correctness: with `size > 0`, `bins ≥ 1` and
`minVal < maxVal`, after the call `histogram[b]` for `b < bins` is the number
of samples in `[minVal, maxVal]` whose specification bin
`clamp(⌊(v - minVal) / (maxVal - minVal) · (bins - 1)⌋, 0, bins - 1)` is `b`;
on such samples the truncating cast of the code equals the floor. -/
theorem CalculateHistogram_per_bin {K : Type} [LinearOrderedField K] [FloorRing K]
    (d : List K) (h : List Int) (size bins : Int) (minVal maxVal : K) (hsize : 0 < size)
    (hd : (d.length : Int) = size) (hbins : 1 ≤ bins) (hh : bins ≤ (h.length : Int))
    (hlt : minVal < maxVal) :
    (∃ h', CalculateHistogram (.buf d) size (.buf h) bins minVal maxVal = some (.buf h') ∧
      h'.length = h.length ∧
      (∀ b : Nat, (b : Int) < bins → h'[b]? = some ((d.countP (fun v =>
        decide (minVal ≤ v ∧ v ≤ maxVal ∧ specBin bins minVal maxVal v = (b : Int))) : Nat) :
          Int)) ∧
      (∀ b : Nat, bins ≤ (b : Int) → h'[b]? = h[b]?)) ∧
    (∀ v : K, minVal ≤ v → v ≤ maxVal →
      cast_int ((v - minVal) / (maxVal - minVal) * ((bins - 1 : Int) : K)) =
        ⌊(v - minVal) / (maxVal - minVal) * ((bins : K) - 1)⌋) := by
  refine ⟨CalculateHistogram_run d h size bins minVal maxVal hsize hd hbins hh hlt,
    fun v h1 h2 => ?_⟩
  have ha0 := (scaled_mem bins minVal maxVal v hbins hlt h1 h2).1
  have hcast : ((bins - 1 : Int) : K) = (bins : K) - 1 := by push_cast; ring
  rw [cast_int, if_pos ha0, hcast]

/-- The per-bin theorem on the samples `[0, 10, 5, 10]` with 10 bins over
`[0, 10]`: cells 0, 4 and 9 end with 1, 1 and 2. -/
theorem CalculateHistogram_per_bin_witness :
    ∃ h', CalculateHistogram (.buf [0, 10, 5, 10] : Ptr ℚ) 4 (.buf (List.replicate 10 7))
        10 0 10 = some (.buf h') ∧ h'[0]? = some 1 ∧ h'[4]? = some 1 ∧ h'[9]? = some 2 := by
  obtain ⟨⟨h', hrun, -, hcells, -⟩, -⟩ := CalculateHistogram_per_bin
    ([0, 10, 5, 10] : List ℚ) (List.replicate 10 7) 4 10 0 10
    (by decide) (by rfl) (by decide) (by simp) (by norm_num)
  refine ⟨h', hrun, ?_, ?_, ?_⟩
  · rw [hcells 0 (by decide)]; decide!
  · rw [hcells 4 (by decide)]; decide!
  · rw [hcells 9 (by decide)]; decide!

/-- C5. With `size > 0`, `bins > 0` and `maxVal ≤ minVal`, whatever the
samples and the previous histogram are, `CalculateHistogram` returns with
`histogram[b] = 0` for every `b < bins` and counts nothing. -/
theorem CalculateHistogram_empty_interval {K : Type} [LinearOrderedField K] [FloorRing K]
    (d : List K) (h : List Int) (size bins : Int) (minVal maxVal : K) (hsize : 0 < size)
    (hbins : 0 < bins) (hh : bins ≤ (h.length : Int)) (hle : maxVal ≤ minVal) :
    ∃ h', CalculateHistogram (.buf d) size (.buf h) bins minVal maxVal = some (.buf h') ∧
      h'.length = h.length ∧
      (∀ b : Nat, (b : Int) < bins → h'[b]? = some 0) ∧
      (∀ b : Nat, bins ≤ (b : Int) → h'[b]? = h[b]?) := by
  obtain ⟨z, hz, hzlen, hzlow, hzhigh⟩ := histogram_zeroed h bins hbins hh
  refine ⟨z, ?_, hzlen, hzlow, hzhigh⟩
  have hr : maxVal - minVal ≤ 0 := sub_nonpos.mpr hle
  have hg : ¬ (size ≤ 0 ∨ bins ≤ 0) := by omega
  simp [CalculateHistogram, hg, hz, hr]

/-- The empty-interval theorem on two samples equal to `minVal = maxVal = 3`:
the three bins end at 0 and the cell after them keeps its value. -/
theorem CalculateHistogram_empty_interval_witness :
    ∃ h', CalculateHistogram (.buf [3, 3] : Ptr ℚ) 2 (.buf [7, 7, 7, 7]) 3 3 3 =
        some (.buf h') ∧ h'[0]? = some 0 ∧ h'[1]? = some 0 ∧ h'[2]? = some 0 ∧
      h'[3]? = some 7 := by
  obtain ⟨h', hrun, -, hlow, hhigh⟩ := CalculateHistogram_empty_interval
    ([3, 3] : List ℚ) [7, 7, 7, 7] 2 3 3 3 (by decide) (by decide) (by simp) le_rfl
  exact ⟨h', hrun, hlow 0 (by decide), hlow 1 (by decide), hlow 2 (by decide),
    by rw [hhigh 3 (by decide)]; rfl⟩

/-! ## Volumes -/

/-- The flat index of an in-range voxel lies inside the volume. -/
theorem index_bounds (W H D x y z : Int) (hx0 : 0 ≤ x) (hx : x < W) (hy0 : 0 ≤ y)
    (hy : y < H) (hz0 : 0 ≤ z) (hz : z < D) :
    0 ≤ x + y * W + z * W * H ∧ x + y * W + z * W * H < W * H * D := by
  have hW : 0 < W := by omega
  have hH : 0 < H := by omega
  have h1 : 0 ≤ y * W := mul_nonneg hy0 hW.le
  have h2 : 0 ≤ z * W * H := mul_nonneg (mul_nonneg hz0 hW.le) hH.le
  have h3 : y * W ≤ (H - 1) * W := mul_le_mul_of_nonneg_right (by omega) hW.le
  have h4 : z * (W * H) ≤ (D - 1) * (W * H) :=
    mul_le_mul_of_nonneg_right (by omega) (mul_pos hW hH).le
  constructor
  · linarith
  · nlinarith

/-- The coordinates of a voxel are recovered from its flat index. -/
theorem index_decode (W H x y z : Int) (hx0 : 0 ≤ x) (hx : x < W) (hy0 : 0 ≤ y)
    (hy : y < H) :
    (x + y * W + z * W * H) % W = x ∧ (x + y * W + z * W * H) / W % H = y ∧
      (x + y * W + z * W * H) / (W * H) = z := by
  have hW : 0 < W := by omega
  have hH : 0 < H := by omega
  have e1 : x + y * W + z * W * H = x + W * (y + H * z) := by ring
  have hq : (x + W * (y + H * z)) / W = y + H * z := by
    rw [Int.add_mul_ediv_left _ _ hW.ne', Int.ediv_eq_zero_of_lt hx0 hx, zero_add]
  refine ⟨?_, ?_, ?_⟩
  · rw [e1, Int.add_mul_emod_self_left, Int.emod_eq_of_lt hx0 hx]
  · rw [e1, hq, Int.add_mul_emod_self_left, Int.emod_eq_of_lt hy0 hy]
  · have e2 : x + y * W + z * W * H = (x + W * y) + (W * H) * z := by ring
    have h0 : 0 ≤ x + W * y := add_nonneg hx0 (mul_nonneg hW.le hy0)
    have h1 : x + W * y < W * H := by
      have : W * y ≤ W * (H - 1) := mul_le_mul_of_nonneg_left (by omega) hW.le
      linarith
    rw [e2, Int.add_mul_ediv_left _ _ (mul_pos hW hH).ne', Int.ediv_eq_zero_of_lt h0 h1,
      zero_add]


/-- Writing the next cell extends a fill by one. -/
theorem FilledTo_write {α : Type} (out : List α) (G : Int → α) (n : Int) (t : List α)
    (v : α) (hP : FilledTo out G n t) (h0 : 0 ≤ n) (hn : n < (out.length : Int))
    (hv : v = G n) : ∃ t', writeAt t n v = some t' ∧ FilledTo out G (n + 1) t' := by
  obtain ⟨hlen, hlow, hhigh⟩ := hP
  obtain ⟨m, rfl⟩ := Int.eq_ofNat_of_zero_le h0
  have hmt : m < t.length := by omega
  refine ⟨t.set m v, writeAt_natCast _ _ _ hmt, by simpa using hlen, ?_, ?_⟩
  · intro j hj
    by_cases hjm : j = m
    · subst hjm; rw [List.getElem?_set_self hmt, hv]
    · rw [List.getElem?_set_ne (Ne.symm hjm)]
      exact hlow j (by omega)
  · intro j hj
    rw [List.getElem?_set_ne (by omega)]
    exact hhigh j (by omega)

/-- The loop nest of `forVoxels` on a large enough buffer, when every voxel
value `voxel x y z` is defined and equal to `g x y z`: it runs to its end and
fills the cells below `depth * width * height` in index order. -/
theorem forVoxels_filled {α : Type} (W H D : Int) (hW : 0 < W) (hH : 0 < H) (hD : 0 < D)
    (voxel : Int → Int → Int → Option α) (g : Int → Int → Int → α) (out : List α)
    (hout : W * H * D ≤ (out.length : Int))
    (hvox : ∀ x y z : Int, 0 ≤ x → x < W → 0 ≤ y → y < H → 0 ≤ z → z < D →
      voxel x y z = some (g x y z)) :
    ∃ out', forVoxels W H D voxel out = some out' ∧
      FilledTo out (fun j => g (j % W) (j / W % H) (j / (W * H))) (D * W * H) out' := by
  refine forRange_inv (fun z t => FilledTo out _ (z * W * H) t) 0 D _ out hD.le
    ⟨rfl, fun j hj => absurd hj (by simp), fun _ _ => rfl⟩ ?_
  intro z t hz0 hz hPz
  have := forRange_inv (fun y t => FilledTo out
      (fun j => g (j % W) (j / W % H) (j / (W * H))) (y * W + z * W * H) t) 0 H
    (fun y out => forRange 0 W (fun x out => do
      let value ← voxel x y z
      let index := x + y * W + z * W * H
      writeAt out index value) out) t hH.le (by simpa using hPz) ?_
  · obtain ⟨t', ht', hP'⟩ := this
    refine ⟨t', ht', ?_⟩
    have e : (z + 1) * W * H = H * W + z * W * H := by ring
    beta_reduce; rw [e]; exact hP'
  · intro y t hy0 hy hPy
    have := forRange_inv (fun x t => FilledTo out
        (fun j => g (j % W) (j / W % H) (j / (W * H))) (x + y * W + z * W * H) t) 0 W
      (fun x out => do
        let value ← voxel x y z
        let index := x + y * W + z * W * H
        writeAt out index value) t hW.le (by simpa using hPy) ?_
    · obtain ⟨t', ht', hP'⟩ := this
      refine ⟨t', ht', ?_⟩
      have e : (y + 1) * W + z * W * H = W + y * W + z * W * H := by ring
      beta_reduce; rw [e]; exact hP'
    · intro x t hx0 hx hPx
      obtain ⟨hi0, hi1⟩ := index_bounds W H D x y z hx0 hx hy0 hy hz0 hz
      obtain ⟨d1, d2, d3⟩ := index_decode W H x y z hx0 hx hy0 hy
      obtain ⟨t', ht', hP'⟩ := FilledTo_write out _ (x + y * W + z * W * H) t (g x y z)
        hPx hi0 (by omega) (by simp only [d1, d2, d3])
      refine ⟨t', ?_, ?_⟩
      · simp only [hvox x y z hx0 hx hy0 hy hz0 hz, Option.bind_eq_bind, Option.some_bind]
        exact ht'
      · have e : x + 1 + y * W + z * W * H = x + y * W + z * W * H + 1 := by ring
        beta_reduce; rw [e]; exact hP'

/-- The result of `forVoxels` voxel by voxel: `g x y z` is stored at the flat
index of every voxel, the buffer keeps its length and its cells from
`width * height * depth` on. -/
theorem forVoxels_spec {α : Type} (W H D : Int) (hW : 0 < W) (hH : 0 < H) (hD : 0 < D)
    (voxel : Int → Int → Int → Option α) (g : Int → Int → Int → α) (out : List α)
    (hout : W * H * D ≤ (out.length : Int))
    (hvox : ∀ x y z : Int, 0 ≤ x → x < W → 0 ≤ y → y < H → 0 ≤ z → z < D →
      voxel x y z = some (g x y z)) :
    ∃ out', forVoxels W H D voxel out = some out' ∧ out'.length = out.length ∧
      (∀ x y z : Int, 0 ≤ x → x < W → 0 ≤ y → y < H → 0 ≤ z → z < D →
        out'[(x + y * W + z * W * H).toNat]? = some (g x y z)) ∧
      (∀ j : Nat, W * H * D ≤ (j : Int) → out'[j]? = out[j]?) := by
  obtain ⟨out', hrun, hlen, hlow, hhigh⟩ :=
    forVoxels_filled W H D hW hH hD voxel g out hout hvox
  refine ⟨out', hrun, hlen, ?_, ?_⟩
  · intro x y z hx0 hx hy0 hy hz0 hz
    obtain ⟨hi0, hi1⟩ := index_bounds W H D x y z hx0 hx hy0 hy hz0 hz
    obtain ⟨d1, d2, d3⟩ := index_decode W H x y z hx0 hx hy0 hy
    have := hlow (x + y * W + z * W * H).toNat
      (by rw [Int.toNat_of_nonneg hi0]; linarith [mul_comm (W * H) D, mul_assoc D W H])
    rw [this, Int.toNat_of_nonneg hi0]
    simp only [d1, d2, d3]
  · intro j hj
    exact hhigh j (by linarith [mul_comm (W * H) D, mul_assoc D W H])

/-! ## Gaussian kernel -/

/-- The kernel length is at least 3. -/
theorem kernelSize_ge {K : Type} [LinearOrderedField K] [FloorRing K] (sigma : K) :
    3 ≤ kernelSize sigma := by
  unfold kernelSize
  simp only []
  split_ifs with h
  · exact le_rfl
  · omega

/-- The kernel length is `2 * halfKernel + 1`. -/
theorem kernelSize_eq_half {K : Type} [LinearOrderedField K] [FloorRing K] (sigma : K) :
    kernelSize sigma = 2 * halfKernel sigma + 1 ∧ 1 ≤ halfKernel sigma := by
  have h3 := kernelSize_ge sigma
  have hodd : kernelSize sigma % 2 = 1 := by
    unfold kernelSize
    simp only []
    split_ifs with h
    · rfl
    · omega
  have hdiv : halfKernel sigma = kernelSize sigma / 2 := by
    unfold halfKernel
    exact Int.tdiv_eq_ediv (by omega) (by decide)
  omega

/-- The kernel length for a positive `sigma`, in closed form. -/
theorem kernelSize_of_pos {K : Type} [LinearOrderedField K] [FloorRing K] (sigma : K)
    (hsigma : 0 < sigma) : kernelSize sigma = max 3 (2 * ⌊3 * sigma⌋ + 1) := by
  have hpos : (0 : K) ≤ sigma * 3 := by positivity
  have hcast : cast_int (sigma * 3) = ⌊3 * sigma⌋ := by
    rw [cast_int, if_pos hpos, mul_comm]
  unfold kernelSize
  simp only [hcast]
  split_ifs with h
  · rw [max_eq_left (by omega)]
  · rw [max_eq_right (by omega)]; ring

/-- C9. For every `sigma > 0` the kernel length is
`max(3, 2 * ⌊3 * sigma⌋ + 1)`; it is odd and at least 3, and with
`halfKernel = kernelSize / 2` it equals `2 * halfKernel + 1`. -/
theorem kernelSize_formula {K : Type} [LinearOrderedField K] [FloorRing K] (sigma : K)
    (hsigma : 0 < sigma) :
    kernelSize sigma = max 3 (2 * ⌊3 * sigma⌋ + 1) ∧ kernelSize sigma % 2 = 1 ∧
      3 ≤ kernelSize sigma ∧ halfKernel sigma = kernelSize sigma / 2 ∧
      kernelSize sigma = 2 * halfKernel sigma + 1 := by
  have hsize := kernelSize_of_pos sigma hsigma
  have hfl : 0 ≤ ⌊3 * sigma⌋ := Int.floor_nonneg.mpr (by positivity)
  have h3 : 3 ≤ kernelSize sigma := by rw [hsize]; exact le_max_left _ _
  have hodd : kernelSize sigma % 2 = 1 := by
    rw [hsize]
    rcases le_total (2 * ⌊3 * sigma⌋ + 1) 3 with h | h
    · rw [max_eq_left h]; rfl
    · rw [max_eq_right h]; omega
  have hdiv : halfKernel sigma = kernelSize sigma / 2 := by
    unfold halfKernel
    exact Int.tdiv_eq_ediv (by omega) (by decide)
  exact ⟨hsize, hodd, h3, hdiv, by omega⟩

/-- The kernel theorem at `sigma = 1`: seven taps, centre index 3. -/
theorem kernelSize_formula_witness : kernelSize (1 : ℚ) = 7 ∧ halfKernel (1 : ℚ) = 3 := by
  obtain ⟨hsize, -, -, hhalf, -⟩ := kernelSize_formula (1 : ℚ) (by norm_num)
  have hfl : ⌊(3 : ℚ) * 1⌋ = 3 := by
    rw [mul_one]; exact Int.floor_intCast (3 : Int)
  rw [hfl] at hsize
  rw [hhalf, hsize]
  decide

/-- The accumulator `sum` is the sum of the raw weights. -/
theorem kernelSum_eq {K : Type} [LinearOrderedField K] [FloorRing K] (expf : K → K)
    (sigma : K) :
    kernelSum expf sigma = ((List.range (kernelSize sigma).toNat).map
      (fun (i : Nat) => kernelWeight expf sigma (halfKernel sigma) (i : Int))).sum := by
  rw [kernelSum, List.sum_eq_foldl]

/-- The divisor `sum` is positive when `expf` is. -/
theorem kernelSum_pos {K : Type} [LinearOrderedField K] [FloorRing K] (expf : K → K)
    (hexp : ∀ x, 0 < expf x) (sigma : K) : 0 < kernelSum expf sigma := by
  rw [kernelSum_eq]
  apply List.sum_pos
  · intro w hw
    simp only [List.mem_map] at hw
    obtain ⟨i, -, rfl⟩ := hw
    exact hexp _
  · have := kernelSize_ge sigma
    have hn : (kernelSize sigma).toNat ≠ 0 := by omega
    simpa using hn

/-- The normalised kernel sums to 1 when `expf` is positive. -/
theorem gaussianKernel_sum {K : Type} [LinearOrderedField K] [FloorRing K] (expf : K → K)
    (hexp : ∀ x, 0 < expf x) (sigma : K) : (gaussianKernel expf sigma).sum = 1 := by
  have hpos := kernelSum_pos expf hexp sigma
  have : gaussianKernel expf sigma = ((List.range (kernelSize sigma).toNat).map
      (fun (i : Nat) => kernelWeight expf sigma (halfKernel sigma) (i : Int))).map
        (fun w => w * (kernelSum expf sigma)⁻¹) := by
    simp [gaussianKernel, div_eq_mul_inv]
  rw [this, List.sum_map_mul_right, List.map_id', ← kernelSum_eq]
  exact mul_inv_cancel₀ hpos.ne'

/-- C8. Kernel normalisation, for a positive exponential `expf`: the kernel
has `kernelSize` weights, the weight at `i` is
`expf(-(i - halfKernel)² / (2 sigma²))` divided by the sum of these, the
divisor is not 0, every weight is strictly positive, and the weights sum to 1
(so within the tolerance `1e-5` of 1). -/
theorem gaussianKernel_normalized {K : Type} [LinearOrderedField K] [FloorRing K]
    (expf : K → K) (hexp : ∀ x, 0 < expf x) (sigma : K) :
    (gaussianKernel expf sigma).length = (kernelSize sigma).toNat ∧
      (∀ i : Nat, (i : Int) < kernelSize sigma → (gaussianKernel expf sigma)[i]? =
        some (expf (-(((i : K) - (halfKernel sigma : K)) ^ 2) / (2 * sigma ^ 2)) /
          kernelSum expf sigma)) ∧
      kernelSum expf sigma ≠ 0 ∧
      (∀ w ∈ gaussianKernel expf sigma, 0 < w) ∧
      (gaussianKernel expf sigma).sum = 1 ∧
      |(gaussianKernel expf sigma).sum - 1| ≤ 1 / 100000 := by
  have hpos := kernelSum_pos expf hexp sigma
  have hone := gaussianKernel_sum expf hexp sigma
  refine ⟨by simp [gaussianKernel], fun i hi => ?_, hpos.ne', fun w hw => ?_, hone,
    by rw [hone, sub_self, abs_zero]; norm_num⟩
  · have hi' : i < (kernelSize sigma).toNat := by omega
    simp only [gaussianKernel, List.getElem?_map, List.getElem?_range hi', Option.map_some',
      kernelWeight]
    congr 3
    push_cast
    ring
  · simp only [gaussianKernel, List.mem_map] at hw
    obtain ⟨i, -, rfl⟩ := hw
    exact div_pos (hexp _) hpos

/-- The kernel theorem for the real exponential at `sigma = 1`. -/
theorem gaussianKernel_normalized_witness :
    (gaussianKernel Real.exp 1).length = 7 ∧ kernelSum Real.exp 1 ≠ 0 ∧
      (∀ w ∈ gaussianKernel Real.exp 1, 0 < w) ∧ (gaussianKernel Real.exp 1).sum = 1 := by
  obtain ⟨hlen, -, hsum, hpos, hone, -⟩ := gaussianKernel_normalized Real.exp Real.exp_pos 1
  refine ⟨?_, hsum, hpos, hone⟩
  have h7 : kernelSize (1 : ℝ) = 7 := by
    have := kernelSize_of_pos (1 : ℝ) one_pos
    have hfl : ⌊(3 : ℝ) * 1⌋ = 3 := by
      rw [mul_one]; exact Int.floor_intCast (3 : Int)
    rw [hfl] at this
    rw [this]; decide
  rw [hlen, h7]; rfl

/-! ## Gaussian blur -/

/-- The call `std::copy(src, src + count, out)` on large enough buffers copies
the first `count` cells and changes nothing else. -/
theorem copyCells_spec {K : Type} [LinearOrderedField K] [FloorRing K] (src out : List K)
    (count : Int) (hcount : 0 ≤ count) (hsrc : count ≤ (src.length : Int))
    (hout : count ≤ (out.length : Int)) :
    ∃ out', copyCells src count out = some out' ∧ out'.length = out.length ∧
      (∀ j : Nat, (j : Int) < count → out'[j]? = src[j]?) ∧
      (∀ j : Nat, count ≤ (j : Int) → out'[j]? = out[j]?) := by
  refine forRange_inv
    (fun i (t : List K) => t.length = out.length ∧
      (∀ j : Nat, (j : Int) < i → t[j]? = src[j]?) ∧
      (∀ j : Nat, i ≤ (j : Int) → t[j]? = out[j]?))
    0 count _ out hcount ⟨rfl, fun j hj => absurd hj (by omega), fun _ _ => rfl⟩ ?_
  rintro i t h0 hlt ⟨hlen, hlow, hhigh⟩
  obtain ⟨n, rfl⟩ := Int.eq_ofNat_of_zero_le h0
  have hns : n < src.length := by omega
  have hnt : n < t.length := by omega
  refine ⟨t.set n src[n], ?_, by simpa using hlen, ?_, ?_⟩
  · simp [readAt_natCast, List.getElem?_eq_getElem hns, writeAt_natCast _ _ _ hnt]
  · intro j hj
    by_cases hjn : j = n
    · subst hjn; rw [List.getElem?_set_self hnt, List.getElem?_eq_getElem hns]
    · rw [List.getElem?_set_ne (Ne.symm hjn)]
      exact hlow j (by omega)
  · intro j hj
    rw [List.getElem?_set_ne (by omega)]
    exact hhigh j (by omega)

/-- C6. Identity blur: for `width, height, depth > 0` and `sigma ≤ 0`,
`ApplyGaussianBlur3D` returns with `output[i] = input[i]` for every
`i < width * height * depth`, and leaves the rest of the output alone. -/
theorem ApplyGaussianBlur3D_identity {K : Type} [LinearOrderedField K] [FloorRing K]
    (expf : K → K) (src out : List K) (W H D : Int) (sigma : K) (hW : 0 < W) (hH : 0 < H)
    (hD : 0 < D) (hsigma : sigma ≤ 0) (hsrc : (src.length : Int) = W * H * D)
    (hout : W * H * D ≤ (out.length : Int)) :
    ∃ out', ApplyGaussianBlur3D expf (.buf src) (.buf out) W H D sigma = some (.buf out') ∧
      out'.length = out.length ∧
      (∀ (i : Nat) (hi : i < src.length), out'[i]? = some src[i]) ∧
      (∀ i : Nat, src.length ≤ i → out'[i]? = out[i]?) := by
  obtain ⟨out', hrun, hlen, hlow, hhigh⟩ := copyCells_spec src out (W * H * D)
    (by rw [← hsrc]; exact Int.natCast_nonneg _) hsrc.ge hout
  refine ⟨out', ?_, hlen, fun i hi => ?_, fun i hi => hhigh i (by omega)⟩
  · have hg : ¬ (W ≤ 0 ∨ H ≤ 0 ∨ D ≤ 0) := by omega
    simp [ApplyGaussianBlur3D, hg, hsigma, hrun]
  · rw [hlow i (by omega), List.getElem?_eq_getElem hi]

/-- The identity theorem on a `2 × 1 × 2` volume with `sigma = 0`. -/
theorem ApplyGaussianBlur3D_identity_witness :
    ∃ out', ApplyGaussianBlur3D (fun _ => (1 : ℚ)) (.buf [1, 2, 3, 4]) (.buf [0, 0, 0, 0, 9])
        2 1 2 0 = some (.buf out') ∧ out' = [1, 2, 3, 4, 9] := by
  obtain ⟨out', hrun, hlen, hlow, hhigh⟩ := ApplyGaussianBlur3D_identity (fun _ => (1 : ℚ))
    [1, 2, 3, 4] [0, 0, 0, 0, 9] 2 1 2 0 (by decide) (by decide) (by decide) le_rfl
    (by rfl) (by simp)
  refine ⟨out', hrun, ?_⟩
  apply List.ext_getElem?
  intro i
  by_cases hi : i < 4
  · rw [hlow i (by simpa using hi)]
    interval_cases i <;> rfl
  · rw [hhigh i (by simpa using hi)]
    rcases Nat.lt_or_ge i 5 with h5 | h5
    · have : i = 4 := by omega
      subst this; rfl
    · simp [List.getElem?_eq_none, h5]

/-- The tap loop of a blur pass: when every tap reads a defined sample `s k`
and a defined weight `w k`, the loop returns the sum of the products. -/
theorem blur_taps {K : Type} [LinearOrderedField K] (src kernel : List K) (half : Int)
    (idxOf : Int → Int) (s w : Int → K) (hhalf : 0 ≤ half)
    (hs : ∀ k : Int, -half ≤ k → k ≤ half → readAt src (idxOf k) = some (s k))
    (hw : ∀ k : Int, -half ≤ k → k ≤ half → readAt kernel (k + half) = some (w k)) :
    forRange (-half) (half + 1) (fun k value => do
        let a ← readAt src (idxOf k)
        let b ← readAt kernel (k + half)
        some (value + a * b)) 0 =
      some (∑ j in Finset.range (2 * half + 1).toNat,
        s ((j : Int) - half) * w ((j : Int) - half)) := by
  obtain ⟨v, hrun, hv⟩ := forRange_inv
    (fun i (v : K) => v = ∑ j in Finset.range (i + half).toNat,
      s ((j : Int) - half) * w ((j : Int) - half))
    (-half) (half + 1) (fun k value => do
        let a ← readAt src (idxOf k)
        let b ← readAt kernel (k + half)
        some (value + a * b)) 0 (by omega) (by simp)
    (by
      intro i v hi0 hi1 hv
      refine ⟨v + s i * w i, ?_, ?_⟩
      · simp only [hs i hi0 (by omega), hw i hi0 (by omega), Option.bind_eq_bind,
          Option.some_bind]
      · have e : (i + 1 + half).toNat = (i + half).toNat + 1 := by omega
        have e' : (((i + half).toNat : Nat) : Int) - half = i := by omega
        beta_reduce
        rw [e, Finset.sum_range_succ, ← hv, e'])
  have e : (half + 1 + half).toNat = (2 * half + 1).toNat := by congr 1; ring
  rw [hrun, hv, e]

/-- A list is the sum of its cells. -/
theorem sum_eq_sum_cells {M : Type} [AddCommMonoid M] (l : List M) :
    l.sum = ∑ j in Finset.range l.length, l[j]?.getD 0 := by
  have := sum_take_cells l (fun j => l[j]?.getD 0) l.length (fun b hb => by
    simp [List.getElem?_eq_getElem hb])
  rwa [List.take_length] at this

/-- The tap loop on a source that is constant on the cells it reads, with a
kernel of `2 * half + 1` weights summing to 1, returns the constant. -/
theorem blur_taps_const {K : Type} [LinearOrderedField K] (src kernel : List K) (half : Int)
    (idxOf : Int → Int) (c : K) (hhalf : 0 ≤ half)
    (hlen : (kernel.length : Int) = 2 * half + 1) (hsum : kernel.sum = 1)
    (hs : ∀ k : Int, -half ≤ k → k ≤ half → readAt src (idxOf k) = some c) :
    forRange (-half) (half + 1) (fun k value => do
        let a ← readAt src (idxOf k)
        let b ← readAt kernel (k + half)
        some (value + a * b)) 0 = some c := by
  rw [blur_taps src kernel half idxOf (fun _ => c)
    (fun k => kernel[(k + half).toNat]?.getD 0) hhalf hs (fun k h0 h1 => by
      have hk : (k + half).toNat < kernel.length := by omega
      simp [readAt_of_nonneg _ _ (show 0 ≤ k + half by omega), List.getElem?_eq_getElem hk])]
  have hn : (2 * half + 1).toNat = kernel.length := by omega
  have hterm : ∀ j : Nat, c * kernel[((j : Int) - half + half).toNat]?.getD 0 =
      c * kernel[j]?.getD 0 := by
    intro j
    have : ((j : Int) - half + half).toNat = j := by omega
    rw [this]
  simp only [hterm]
  rw [hn, ← Finset.mul_sum, ← sum_eq_sum_cells, hsum, mul_one]


/-- A read at the flat index of an in-range voxel, from a source that is
constant on the volume. -/
theorem readAt_const {K : Type} (src : List K) (W H D : Int) (c : K)
    (hc : ∀ j : Nat, (j : Int) < W * H * D → src[j]? = some c) (x y z : Int)
    (hx0 : 0 ≤ x) (hx : x < W) (hy0 : 0 ≤ y) (hy : y < H) (hz0 : 0 ≤ z) (hz : z < D) :
    readAt src (x + y * W + z * W * H) = some c := by
  obtain ⟨hi0, hi1⟩ := index_bounds W H D x y z hx0 hx hy0 hy hz0 hz
  rw [readAt_of_nonneg _ _ hi0]
  exact hc _ (by rw [Int.toNat_of_nonneg hi0]; exact hi1)

/-- The clamp `max(0, min(n - 1, v))` lands in `[0, n)`. -/
theorem clamp_mem (n v : Int) (hn : 0 < n) :
    0 ≤ max 0 (min (n - 1) v) ∧ max 0 (min (n - 1) v) < n := by
  refine ⟨le_max_left _ _, ?_⟩
  rw [max_lt_iff]
  exact ⟨hn, lt_of_le_of_lt (min_le_left _ _) (by omega)⟩

/-- One pass of the blur over a source that is constant on the volume leaves
the constant in every cell of the volume. -/
theorem blurPass_const {K : Type} [LinearOrderedField K] (W H D : Int) (hW : 0 < W)
    (hH : 0 < H) (hD : 0 < D) (voxel : Int → Int → Int → Option K) (c : K) (out : List K)
    (hout : W * H * D ≤ (out.length : Int))
    (hvox : ∀ x y z : Int, 0 ≤ x → x < W → 0 ≤ y → y < H → 0 ≤ z → z < D →
      voxel x y z = some c) :
    ∃ out', forVoxels W H D voxel out = some out' ∧ out'.length = out.length ∧
      ∀ j : Nat, (j : Int) < W * H * D → out'[j]? = some c := by
  obtain ⟨out', hrun, hlen, hlow, -⟩ :=
    forVoxels_filled W H D hW hH hD voxel (fun _ _ _ => c) out hout hvox
  exact ⟨out', hrun, hlen, fun j hj =>
    hlow j (by linarith [mul_comm (W * H) D, mul_assoc D W H])⟩

/-- C7. Constant fields are fixed points of the blur: for
`width, height, depth > 0`, every `sigma` and a positive exponential `expf`,
if `input[i] = c` for all `i < width * height * depth` then
`ApplyGaussianBlur3D` returns with `output[i] = c` for all those `i`. -/
theorem ApplyGaussianBlur3D_const {K : Type} [LinearOrderedField K] [FloorRing K]
    (expf : K → K) (hexp : ∀ x, 0 < expf x) (src out : List K) (W H D : Int) (sigma c : K)
    (hW : 0 < W) (hH : 0 < H) (hD : 0 < D)
    (hc : ∀ j : Nat, (j : Int) < W * H * D → src[j]? = some c)
    (hout : W * H * D ≤ (out.length : Int)) :
    ∃ out', ApplyGaussianBlur3D expf (.buf src) (.buf out) W H D sigma = some (.buf out') ∧
      out'.length = out.length ∧ ∀ j : Nat, (j : Int) < W * H * D → out'[j]? = some c := by
  have hg : ¬ (W ≤ 0 ∨ H ≤ 0 ∨ D ≤ 0) := by omega
  have hN : 0 < W * H * D := mul_pos (mul_pos hW hH) hD
  by_cases hsigma : sigma ≤ 0
  · have hsrc : W * H * D ≤ (src.length : Int) := by
      by_contra h
      have := hc src.length (by omega)
      rw [List.getElem?_eq_none le_rfl] at this
      exact Option.noConfusion this
    obtain ⟨out', hrun, hlen, hlow, -⟩ := copyCells_spec src out (W * H * D) hN.le hsrc hout
    refine ⟨out', ?_, hlen, fun j hj => by rw [hlow j hj, hc j hj]⟩
    simp [ApplyGaussianBlur3D, hg, hsigma, hrun]
  · obtain ⟨hsize, hhalf⟩ := kernelSize_eq_half sigma
    have hklen : ((gaussianKernel expf sigma).length : Int) = 2 * halfKernel sigma + 1 := by
      have : (gaussianKernel expf sigma).length = (kernelSize sigma).toNat := by
        simp [gaussianKernel]
      omega
    have hksum := gaussianKernel_sum expf hexp sigma
    have hrep : W * H * D ≤ ((List.replicate (W * H * D).toNat (0 : K)).length : Int) := by
      simp
    obtain ⟨t1, hrun1, hlen1, hc1⟩ := blurPass_const W H D hW hH hD
      (blurX src (gaussianKernel expf sigma) W H (halfKernel sigma)) c
      (List.replicate (W * H * D).toNat 0) hrep (fun x y z hx0 hx hy0 hy hz0 hz =>
        blur_taps_const src _ (halfKernel sigma)
          (fun k => max 0 (min (W - 1) (x + k)) + y * W + z * W * H) c (by omega) hklen hksum
          (fun k _ _ => readAt_const src W H D c hc _ y z (clamp_mem W _ hW).1
            (clamp_mem W _ hW).2 hy0 hy hz0 hz))
    obtain ⟨t2, hrun2, hlen2, hc2⟩ := blurPass_const W H D hW hH hD
      (blurY t1 (gaussianKernel expf sigma) W H (halfKernel sigma)) c
      (List.replicate (W * H * D).toNat 0) hrep (fun x y z hx0 hx hy0 hy hz0 hz =>
        blur_taps_const t1 _ (halfKernel sigma)
          (fun k => x + max 0 (min (H - 1) (y + k)) * W + z * W * H) c (by omega) hklen hksum
          (fun k _ _ => readAt_const t1 W H D c hc1 x _ z hx0 hx (clamp_mem H _ hH).1
            (clamp_mem H _ hH).2 hz0 hz))
    obtain ⟨t3, hrun3, hlen3, hc3⟩ := blurPass_const W H D hW hH hD
      (blurZ t2 (gaussianKernel expf sigma) W H D (halfKernel sigma)) c out hout
      (fun x y z hx0 hx hy0 hy hz0 hz =>
        blur_taps_const t2 _ (halfKernel sigma)
          (fun k => x + y * W + max 0 (min (D - 1) (z + k)) * W * H) c (by omega) hklen hksum
          (fun k _ _ => readAt_const t2 W H D c hc2 x y _ hx0 hx hy0 hy (clamp_mem D _ hD).1
            (clamp_mem D _ hD).2))
    refine ⟨t3, ?_, hlen3, hc3⟩
    simp [ApplyGaussianBlur3D, hg, hsigma, hrun1, hrun2, hrun3]

/-- The constant-field theorem for the real exponential on a `2 × 1 × 1`
volume of value 5 with `sigma = 1`. -/
theorem ApplyGaussianBlur3D_const_witness :
    ∃ out', ApplyGaussianBlur3D Real.exp (.buf [5, 5]) (.buf [0, 0]) 2 1 1 1 =
        some (.buf out') ∧ out' = [5, 5] := by
  obtain ⟨out', hrun, hlen, hc⟩ := ApplyGaussianBlur3D_const Real.exp Real.exp_pos
    [5, 5] [0, 0] 2 1 1 1 5 (by decide) (by decide) (by decide)
    (fun j hj => by
      have : j < 2 := by omega
      interval_cases j <;> rfl)
    (by simp)
  refine ⟨out', hrun, ?_⟩
  apply List.ext_getElem?
  intro i
  by_cases hi : i < 2
  · rw [hc i (by omega)]
    interval_cases i <;> rfl
  · have h2 : out'.length ≤ i := by rw [hlen]; simpa using hi
    rw [List.getElem?_eq_none h2, List.getElem?_eq_none (by simpa using hi)]

/-! ## Noise synthesis -/

/-- The hash lies in `[-1, 1]` for every integer triple. -/
theorem hash3_mem {K : Type} [LinearOrderedField K] (x y z : Int) :
    (-1 : K) ≤ hash3 x y z ∧ (hash3 x y z : K) ≤ 1 := by
  unfold hash3
  simp only []
  generalize ((((x + y * 57 + z * 997) % 4294967296).toNat <<< 13) % 4294967296) ^^^
    ((x + y * 57 + z * 997) % 4294967296).toNat = n
  have hm : (n * (n * n * 15731 + 789221) + 1376312589) % 4294967296 &&& 0x7fffffff
      ≤ 0x7fffffff := Nat.and_le_right
  generalize (n * (n * n * 15731 + 789221) + 1376312589) % 4294967296 &&& 0x7fffffff = m at hm
  have h0 : (0 : K) ≤ (m : K) := Nat.cast_nonneg m
  have h1 : (m : K) ≤ 2147483647 := by exact_mod_cast hm
  constructor
  · rw [neg_le_sub_iff_le_add, div_le_iff₀ (by norm_num)]
    linarith
  · have : (0 : K) ≤ (m : K) / 1073741824 := div_nonneg h0 (by norm_num)
    linarith

/-- The ease curve maps `[0, 1]` into `[0, 1]`. -/
theorem smoothstep1_mem {K : Type} [LinearOrderedField K] (t : K) (h0 : 0 ≤ t) (h1 : t ≤ 1) :
    0 ≤ smoothstep1 t ∧ smoothstep1 t ≤ 1 := by
  unfold smoothstep1
  constructor
  · exact mul_nonneg (mul_nonneg h0 h0) (by linarith)
  · nlinarith [mul_nonneg (mul_self_nonneg (1 - t)) (by linarith : (0 : K) ≤ 1 + 2 * t)]

/-- An interpolation with weight in `[0, 1]` stays between bounds of its ends. -/
theorem lerp1_mem {K : Type} [LinearOrderedField K] (a b t lo hi : K) (h0 : 0 ≤ t)
    (h1 : t ≤ 1) (ha : lo ≤ a ∧ a ≤ hi) (hb : lo ≤ b ∧ b ≤ hi) :
    lo ≤ lerp1 a b t ∧ lerp1 a b t ≤ hi := by
  unfold lerp1
  have e : a + t * (b - a) = (1 - t) * a + t * b := by ring
  rw [e]
  have ht : 0 ≤ 1 - t := by linarith
  constructor
  · nlinarith [mul_le_mul_of_nonneg_left ha.1 ht, mul_le_mul_of_nonneg_left hb.1 h0]
  · nlinarith [mul_le_mul_of_nonneg_left ha.2 ht, mul_le_mul_of_nonneg_left hb.2 h0]

/-- The weight of a coordinate: the ease curve at its fractional part. -/
theorem ease_mem {K : Type} [LinearOrderedField K] [FloorRing K] (x : K) :
    0 ≤ smoothstep1 (x - ((⌊x⌋ : Int) : K)) ∧ smoothstep1 (x - ((⌊x⌋ : Int) : K)) ≤ 1 :=
  smoothstep1_mem _ (sub_nonneg.mpr (Int.floor_le x))
    (by linarith [Int.lt_floor_add_one x])

/-- The interpolator lies in `[-1, 1]` at every point. -/
theorem perlin3D_mem {K : Type} [LinearOrderedField K] [FloorRing K] (x y z : K) :
    -1 ≤ perlin3D x y z ∧ perlin3D x y z ≤ 1 := by
  unfold perlin3D
  simp only []
  have hu := ease_mem x
  have hv := ease_mem y
  have hw := ease_mem z
  exact lerp1_mem _ _ _ _ _ hw.1 hw.2
    (lerp1_mem _ _ _ _ _ hv.1 hv.2
      (lerp1_mem _ _ _ _ _ hu.1 hu.2 (hash3_mem _ _ _) (hash3_mem _ _ _))
      (lerp1_mem _ _ _ _ _ hu.1 hu.2 (hash3_mem _ _ _) (hash3_mem _ _ _)))
    (lerp1_mem _ _ _ _ _ hv.1 hv.2
      (lerp1_mem _ _ _ _ _ hu.1 hu.2 (hash3_mem _ _ _) (hash3_mem _ _ _))
      (lerp1_mem _ _ _ _ _ hu.1 hu.2 (hash3_mem _ _ _) (hash3_mem _ _ _)))


/-- Invariant of the octave loop for a non-negative persistence: after `n`
iterations the amplitude is non-negative, `|total| ≤ maxValue`, and
`maxValue ≥ 1` once an iteration has run. -/
theorem octaveLoop_inv {K : Type} [LinearOrderedField K] [FloorRing K] (W H D : Int)
    (scale persistence : K) (hp : 0 ≤ persistence) (x y z : Int) (n : Nat) :
    0 ≤ (octaveLoop W H D scale (n : Int) persistence x y z).amplitude ∧
      -(octaveLoop W H D scale (n : Int) persistence x y z).maxValue ≤
        (octaveLoop W H D scale (n : Int) persistence x y z).total ∧
      (octaveLoop W H D scale (n : Int) persistence x y z).total ≤
        (octaveLoop W H D scale (n : Int) persistence x y z).maxValue ∧
      (n = 0 → (octaveLoop W H D scale (n : Int) persistence x y z).amplitude = 1) ∧
      (1 ≤ n → 1 ≤ (octaveLoop W H D scale (n : Int) persistence x y z).maxValue) := by
  induction n with
  | zero => simp [octaveLoop]
  | succ n ih =>
    have hstep : octaveLoop W H D scale ((n + 1 : Nat) : Int) persistence x y z =
        octaveStep W H D persistence x y z
          (octaveLoop W H D scale (n : Int) persistence x y z) := by
      simp only [octaveLoop, Int.toNat_natCast, List.range_succ, List.foldl_append,
        List.foldl_cons, List.foldl_nil]
    rw [hstep]
    generalize octaveLoop W H D scale (n : Int) persistence x y z = s at ih
    obtain ⟨ha, hlo, hhi, h0, h1⟩ := ih
    simp only [octaveStep]
    obtain ⟨p0, p1⟩ := perlin3D_mem ((x : K) * s.frequency / (W : K))
      ((y : K) * s.frequency / (H : K)) ((z : K) * s.frequency / (D : K))
    generalize perlin3D ((x : K) * s.frequency / (W : K))
      ((y : K) * s.frequency / (H : K)) ((z : K) * s.frequency / (D : K)) = p at p0 p1
    have hmax : 0 ≤ s.maxValue := by linarith
    refine ⟨mul_nonneg ha hp, ?_, ?_, fun h => absurd h (Nat.succ_ne_zero n), fun _ => ?_⟩
    · nlinarith [mul_le_mul_of_nonneg_right p0 ha]
    · nlinarith [mul_le_mul_of_nonneg_right p1 ha]
    · rcases Nat.eq_zero_or_pos n with hn | hn
      · rw [h0 hn]; linarith
      · have := h1 hn; linarith

/-- Every voxel value of the noise lies in `[0, 1]` when `octaves ≥ 1` and the
persistence is non-negative. -/
theorem noiseVoxel_mem {K : Type} [LinearOrderedField K] [FloorRing K] (W H D : Int)
    (scale : K) (octaves : Int) (persistence : K) (hoct : 1 ≤ octaves)
    (hp : 0 ≤ persistence) (x y z : Int) :
    0 ≤ noiseVoxel W H D scale octaves persistence x y z ∧
      noiseVoxel W H D scale octaves persistence x y z ≤ 1 := by
  obtain ⟨n, rfl⟩ := Int.eq_ofNat_of_zero_le (by omega : 0 ≤ octaves)
  obtain ⟨-, hlo, hhi, -, h1⟩ := octaveLoop_inv W H D scale persistence hp x y z n
  have hmax := h1 (by omega)
  unfold noiseVoxel
  simp only []
  generalize octaveLoop W H D scale (n : Int) persistence x y z = s at hlo hhi hmax
  have hpos : 0 < s.maxValue := by linarith
  have hq0 : -1 ≤ s.total / s.maxValue := by
    rw [le_div_iff₀ hpos]; linarith
  have hq1 : s.total / s.maxValue ≤ 1 := by
    rw [div_le_one hpos]; exact hhi
  constructor
  · nlinarith
  · nlinarith

/-- C10. Noise range: for `width, height, depth > 0`, every `scale`,
`octaves ≥ 1` and every persistence `≥ 0` (so every persistence in `(0, 1]`),
`GeneratePerlinNoise3D` returns and every voxel it writes lies in `[0, 1]`;
the cells past the volume are not changed. -/
theorem GeneratePerlinNoise3D_range {K : Type} [LinearOrderedField K] [FloorRing K]
    (out : List K) (W H D : Int) (scale : K) (octaves : Int) (persistence : K)
    (hW : 0 < W) (hH : 0 < H) (hD : 0 < D) (hoct : 1 ≤ octaves) (hp : 0 ≤ persistence)
    (hout : W * H * D ≤ (out.length : Int)) :
    ∃ out', GeneratePerlinNoise3D (.buf out) W H D scale octaves persistence =
        some (.buf out') ∧ out'.length = out.length ∧
      (∀ j : Nat, (j : Int) < W * H * D → ∃ v, out'[j]? = some v ∧ 0 ≤ v ∧ v ≤ 1) ∧
      (∀ j : Nat, W * H * D ≤ (j : Int) → out'[j]? = out[j]?) := by
  obtain ⟨out', hrun, hlen, hlow, hhigh⟩ := forVoxels_filled W H D hW hH hD
    (fun x y z => some (noiseVoxel W H D scale octaves persistence x y z))
    (noiseVoxel W H D scale octaves persistence) out hout (fun _ _ _ _ _ _ _ _ _ => rfl)
  have hg : ¬ (W ≤ 0 ∨ H ≤ 0 ∨ D ≤ 0 ∨ octaves ≤ 0) := by omega
  have hN : D * W * H = W * H * D := by ring
  refine ⟨out', by simp [GeneratePerlinNoise3D, hg, hrun], hlen, fun j hj => ?_,
    fun j hj => hhigh j (by omega)⟩
  exact ⟨_, hlow j (by omega),
    noiseVoxel_mem W H D scale octaves persistence hoct hp _ _ _⟩


/-- The range theorem on a `2 × 1 × 1` volume with `scale = 3`, two octaves
and persistence `1/2`. -/
theorem GeneratePerlinNoise3D_range_witness :
    ∃ out', GeneratePerlinNoise3D (.buf [7, 7, 9] : Ptr ℚ) 2 1 1 3 2 (1 / 2) =
        some (.buf out') ∧
      (∃ v, out'[0]? = some v ∧ 0 ≤ v ∧ v ≤ 1) ∧ (∃ v, out'[1]? = some v ∧ 0 ≤ v ∧ v ≤ 1) ∧
      out'[2]? = some 9 := by
  obtain ⟨out', hrun, -, hlow, hhigh⟩ := GeneratePerlinNoise3D_range ([7, 7, 9] : List ℚ)
    2 1 1 3 2 (1 / 2) (by decide) (by decide) (by decide) (by decide) (by norm_num)
    (by simp)
  exact ⟨out', hrun, hlow 0 (by decide), hlow 1 (by decide),
    by rw [hhigh 2 (by decide)]; rfl⟩

/-- C11. Hash range on the full domain: for every integer triple (negative
coordinates included), with the scramble computed modulo `2 ^ 32`, `hash3`
is `1 - m / 2 ^ 30` where `m` is the low 31 bits of the scrambled word, so
`0 ≤ m ≤ 2 ^ 31 - 1` and the value lies in `[-1, 1]` (and above `-1`). -/
theorem hash3_range {K : Type} [LinearOrderedField K] (x y z : Int) :
    (hash3 x y z : K) = 1 - ((hashWord x y z % 2 ^ 31 : Nat) : K) / 2 ^ 30 ∧
      hashWord x y z % 2 ^ 31 ≤ 2 ^ 31 - 1 ∧
      (-1 : K) < hash3 x y z ∧ (-1 : K) ≤ hash3 x y z ∧ (hash3 x y z : K) ≤ 1 := by
  have hm : hashWord x y z % 2 ^ 31 ≤ 2 ^ 31 - 1 := by omega
  have heq : (hash3 x y z : K) = 1 - ((hashWord x y z % 2 ^ 31 : Nat) : K) / 2 ^ 30 := by
    unfold hash3 hashWord
    simp only []
    rw [show (0x7fffffff : Nat) = 2 ^ 31 - 1 from rfl, Nat.and_pow_two_sub_one_eq_mod]
    norm_num
  refine ⟨heq, hm, ?_, (hash3_mem x y z).1, (hash3_mem x y z).2⟩
  rw [heq]
  generalize hashWord x y z % 2 ^ 31 = m at hm
  have h1 : (m : K) ≤ ((2 ^ 31 - 1 : Nat) : K) := Nat.cast_le.mpr hm
  have h2 : ((2 ^ 31 - 1 : Nat) : K) = 2147483647 := by norm_num
  have h30 : (2 : K) ^ 30 = 1073741824 := by norm_num
  rw [h2] at h1
  rw [h30, neg_lt_sub_iff_lt_add, div_lt_iff₀ (by norm_num)]
  linarith

/-- The hash at a triple with negative coordinates, evaluated. -/
theorem hash3_negative_sample : (hash3 (-5) 7 (-11) : ℚ) = 828021763 / 1073741824 := by
  decide!

/-- The loop-carried values of the octave loop after `n` iterations, in
closed form. -/
theorem octaveLoop_closed {K : Type} [LinearOrderedField K] [FloorRing K] (W H D : Int)
    (scale persistence : K) (x y z : Int) (n : Nat) :
    (octaveLoop W H D scale (n : Int) persistence x y z).total =
        ∑ i in Finset.range n, perlin3D ((x : K) * (scale * 2 ^ i) / (W : K))
          ((y : K) * (scale * 2 ^ i) / (H : K)) ((z : K) * (scale * 2 ^ i) / (D : K)) *
            persistence ^ i ∧
      (octaveLoop W H D scale (n : Int) persistence x y z).frequency = scale * 2 ^ n ∧
      (octaveLoop W H D scale (n : Int) persistence x y z).amplitude = persistence ^ n ∧
      (octaveLoop W H D scale (n : Int) persistence x y z).maxValue =
        ∑ i in Finset.range n, persistence ^ i := by
  induction n with
  | zero => simp [octaveLoop]
  | succ n ih =>
    have hstep : octaveLoop W H D scale ((n + 1 : Nat) : Int) persistence x y z =
        octaveStep W H D persistence x y z
          (octaveLoop W H D scale (n : Int) persistence x y z) := by
      simp only [octaveLoop, Int.toNat_natCast, List.range_succ, List.foldl_append,
        List.foldl_cons, List.foldl_nil]
    obtain ⟨ht, hf, ha, hm⟩ := ih
    rw [hstep]
    simp only [octaveStep, ht, hf, ha, hm, Finset.sum_range_succ]
    exact ⟨trivial, by ring, by ring, trivial⟩


/-- C12. Octave formula: for `width, height, depth > 0`, `octaves ≥ 1` and
every in-range voxel `(x, y, z)`, the value stored at index
`x + y * width + z * width * height` is `(T / M + 1) / 2` with
`T = Σ_{i < octaves} perlin3D(x f_i / W, y f_i / H, z f_i / D) · persistence ^ i`,
`f_i = scale · 2 ^ i` and `M = Σ_{i < octaves} persistence ^ i`. -/
theorem GeneratePerlinNoise3D_formula {K : Type} [LinearOrderedField K] [FloorRing K]
    (out : List K) (W H D : Int) (scale : K) (octaves : Int) (persistence : K)
    (hW : 0 < W) (hH : 0 < H) (hD : 0 < D) (hoct : 1 ≤ octaves)
    (hout : W * H * D ≤ (out.length : Int)) :
    ∃ out', GeneratePerlinNoise3D (.buf out) W H D scale octaves persistence =
        some (.buf out') ∧
      ∀ x y z : Int, 0 ≤ x → x < W → 0 ≤ y → y < H → 0 ≤ z → z < D →
        out'[(x + y * W + z * W * H).toNat]? = some
          (((∑ i in Finset.range octaves.toNat,
              perlin3D ((x : K) * (scale * 2 ^ i) / (W : K))
                ((y : K) * (scale * 2 ^ i) / (H : K))
                ((z : K) * (scale * 2 ^ i) / (D : K)) * persistence ^ i) /
            (∑ i in Finset.range octaves.toNat, persistence ^ i) + 1) / 2) := by
  obtain ⟨out', hrun, -, hvox, -⟩ := forVoxels_spec W H D hW hH hD
    (fun x y z => some (noiseVoxel W H D scale octaves persistence x y z))
    (noiseVoxel W H D scale octaves persistence) out hout (fun _ _ _ _ _ _ _ _ _ => rfl)
  have hg : ¬ (W ≤ 0 ∨ H ≤ 0 ∨ D ≤ 0 ∨ octaves ≤ 0) := by omega
  refine ⟨out', by simp [GeneratePerlinNoise3D, hg, hrun], fun x y z hx0 hx hy0 hy hz0 hz => ?_⟩
  rw [hvox x y z hx0 hx hy0 hy hz0 hz]
  obtain ⟨n, rfl⟩ := Int.eq_ofNat_of_zero_le (by omega : 0 ≤ octaves)
  obtain ⟨ht, -, -, hm⟩ := octaveLoop_closed W H D scale persistence x y z n
  simp only [noiseVoxel, ht, hm, Int.toNat_natCast]
  congr 1
  ring

/-- The formula theorem on a `2 × 1 × 1` volume with `scale = 3`, two octaves
and persistence `1/2`, at the voxel `(1, 0, 0)`. -/
theorem GeneratePerlinNoise3D_formula_witness :
    ∃ out', GeneratePerlinNoise3D (.buf [7, 7] : Ptr ℚ) 2 1 1 3 2 (1 / 2) = some (.buf out') ∧
      out'[1]? = some (((perlin3D (1 * 3 / 2 : ℚ) 0 0 + perlin3D (1 * 6 / 2 : ℚ) 0 0 * (1 / 2)) /
        (1 + 1 / 2) + 1) / 2) := by
  obtain ⟨out', hrun, hvox⟩ := GeneratePerlinNoise3D_formula ([7, 7] : List ℚ) 2 1 1 3 2
    (1 / 2) (by decide) (by decide) (by decide) (by decide) (by simp)
  refine ⟨out', hrun, ?_⟩
  have := hvox 1 0 0 (by decide) (by decide) (by decide) (by decide) (by decide) (by decide)
  have h1 : ((1 : Int) + 0 * 2 + 0 * 2 * 1).toNat = 1 := by decide
  have h2 : (2 : Int).toNat = 2 := by decide
  rw [h1, h2] at this
  rw [this]
  norm_num [Finset.sum_range_succ]

/-- C16. The entry validation does not keep the divisor nonzero: `maxValue`
is `Σ_{i < octaves} persistence ^ i`, which is at least 1 when `octaves ≥ 1`
and `persistence ≥ 0`; but with `octaves = 2` and `persistence = -1`, for any
`width, height, depth > 0`, the guard lets the call through, `maxValue` is 0
at every voxel and the stored value is the quotient by it. -/
theorem GeneratePerlinNoise3D_zero_divisor {K : Type} [LinearOrderedField K] [FloorRing K]
    (out : List K) (W H D : Int) (scale : K) (hW : 0 < W) (hH : 0 < H) (hD : 0 < D)
    (hout : W * H * D ≤ (out.length : Int)) :
    (∀ (n : Nat) (p : K) (x y z : Int),
      (octaveLoop W H D scale (n : Int) p x y z).maxValue = ∑ i in Finset.range n, p ^ i) ∧
    (∀ (n : Nat) (p : K) (x y z : Int), 1 ≤ n → 0 ≤ p →
      1 ≤ (octaveLoop W H D scale (n : Int) p x y z).maxValue) ∧
    ∃ out', GeneratePerlinNoise3D (.buf out) W H D scale 2 (-1) = some (.buf out') ∧
      ∀ x y z : Int, 0 ≤ x → x < W → 0 ≤ y → y < H → 0 ≤ z → z < D →
        (octaveLoop W H D scale 2 (-1) x y z).maxValue = 0 ∧
        out'[(x + y * W + z * W * H).toNat]? = some
          (((octaveLoop W H D scale 2 (-1) x y z).total /
            (octaveLoop W H D scale 2 (-1) x y z).maxValue + 1) * (1 / 2)) := by
  refine ⟨fun n p x y z => (octaveLoop_closed W H D scale p x y z n).2.2.2,
    fun n p x y z hn hp => (octaveLoop_inv W H D scale p hp x y z n).2.2.2.2 hn, ?_⟩
  obtain ⟨out', hrun, -, hvox, -⟩ := forVoxels_spec W H D hW hH hD
    (fun x y z => some (noiseVoxel W H D scale 2 (-1) x y z))
    (noiseVoxel W H D scale 2 (-1)) out hout (fun _ _ _ _ _ _ _ _ _ => rfl)
  refine ⟨out', by simp [GeneratePerlinNoise3D, not_le.mpr hW, not_le.mpr hH, not_le.mpr hD,
    hrun], fun x y z hx0 hx hy0 hy hz0 hz => ?_⟩
  refine ⟨?_, ?_⟩
  · have := (octaveLoop_closed W H D scale (-1 : K) x y z 2).2.2.2
    rw [show ((2 : Nat) : Int) = 2 from rfl] at this
    rw [this]
    norm_num [Finset.sum_range_succ]
  · rw [hvox x y z hx0 hx hy0 hy hz0 hz]
    rfl

/-- The divisor theorem on a `1 × 1 × 1` volume. -/
theorem GeneratePerlinNoise3D_zero_divisor_witness :
    (octaveLoop 1 1 1 (1 : ℚ) 2 (-1) 0 0 0).maxValue = 0 ∧
      ∃ out', GeneratePerlinNoise3D (.buf [7] : Ptr ℚ) 1 1 1 1 2 (-1) = some (.buf out') ∧
        out'[0]? = some (((octaveLoop 1 1 1 (1 : ℚ) 2 (-1) 0 0 0).total /
          (octaveLoop 1 1 1 (1 : ℚ) 2 (-1) 0 0 0).maxValue + 1) * (1 / 2)) := by
  obtain ⟨-, -, out', hrun, hvox⟩ := GeneratePerlinNoise3D_zero_divisor ([7] : List ℚ)
    1 1 1 1 (by decide) (by decide) (by decide) (by simp)
  obtain ⟨hzero, hcell⟩ :=
    hvox 0 0 0 (by decide) (by decide) (by decide) (by decide) (by decide) (by decide)
  exact ⟨hzero, out', hrun, hcell⟩

/-- Every index of the volume is the flat index of an in-range voxel. -/
theorem index_encode (W H D j : Int) (hW : 0 < W) (hH : 0 < H) (hj0 : 0 ≤ j)
    (hj : j < W * H * D) :
    ∃ x y z : Int, 0 ≤ x ∧ x < W ∧ 0 ≤ y ∧ y < H ∧ 0 ≤ z ∧ z < D ∧
      x + y * W + z * W * H = j := by
  have hx0 := Int.emod_nonneg j hW.ne'
  have hx := Int.emod_lt_of_pos j hW
  have hy0 := Int.emod_nonneg (j / W) hH.ne'
  have hy := Int.emod_lt_of_pos (j / W) hH
  have hq0 : 0 ≤ j / W := Int.ediv_nonneg hj0 hW.le
  have hz0 : 0 ≤ j / W / H := Int.ediv_nonneg hq0 hH.le
  have e1 : j % W + W * (j / W) = j := Int.emod_add_ediv j W
  have e2 : j / W % H + H * (j / W / H) = j / W := Int.emod_add_ediv (j / W) H
  have e : j % W + j / W % H * W + j / W / H * W * H = j := by
    calc j % W + j / W % H * W + j / W / H * W * H
        = j % W + W * (j / W % H + H * (j / W / H)) := by ring
      _ = j := by rw [e2, e1]
  refine ⟨j % W, j / W % H, j / W / H, hx0, hx, hy0, hy, hz0, ?_, e⟩
  by_contra hz
  have hz' : D ≤ j / W / H := not_lt.mp hz
  have h1 : D * (W * H) ≤ j / W / H * (W * H) :=
    mul_le_mul_of_nonneg_right hz' (mul_pos hW hH).le
  have h2 : 0 ≤ j / W % H * W := mul_nonneg hy0 hW.le
  nlinarith

/-- The flat index is one-to-one on in-range voxels. -/
theorem index_injective (W H x y z x' y' z' : Int) (hx0 : 0 ≤ x) (hx : x < W)
    (hy0 : 0 ≤ y) (hy : y < H) (hx0' : 0 ≤ x') (hx' : x' < W) (hy0' : 0 ≤ y') (hy' : y' < H)
    (h : x + y * W + z * W * H = x' + y' * W + z' * W * H) : x = x' ∧ y = y' ∧ z = z' := by
  obtain ⟨d1, d2, d3⟩ := index_decode W H x y z hx0 hx hy0 hy
  obtain ⟨d1', d2', d3'⟩ := index_decode W H x' y' z' hx0' hx' hy0' hy'
  rw [h] at d1 d2 d3
  exact ⟨d1.symm.trans d1', d2.symm.trans d2', d3.symm.trans d3'⟩

/-- C13. Noise synthesis is deterministic and overwrites its whole output:
for `width, height, depth, octaves > 0` and any two initial buffers of length
`width * height * depth` the two calls return the same buffer, whose cell at
the flat index of `(x, y, z)` is the noise value of that voxel; and
`(x, y, z) ↦ x + y * width + z * width * height` maps the in-range voxels
into `[0, width * height * depth)`, one-to-one and onto. -/
theorem GeneratePerlinNoise3D_deterministic {K : Type} [LinearOrderedField K] [FloorRing K]
    (out₁ out₂ : List K) (W H D : Int) (scale : K) (octaves : Int) (persistence : K)
    (hW : 0 < W) (hH : 0 < H) (hD : 0 < D) (hoct : 0 < octaves)
    (h₁ : (out₁.length : Int) = W * H * D) (h₂ : (out₂.length : Int) = W * H * D) :
    (∃ r, GeneratePerlinNoise3D (.buf out₁) W H D scale octaves persistence = some (.buf r) ∧
      GeneratePerlinNoise3D (.buf out₂) W H D scale octaves persistence = some (.buf r) ∧
      (r.length : Int) = W * H * D ∧
      ∀ x y z : Int, 0 ≤ x → x < W → 0 ≤ y → y < H → 0 ≤ z → z < D →
        r[(x + y * W + z * W * H).toNat]? =
          some (noiseVoxel W H D scale octaves persistence x y z)) ∧
    (∀ x y z : Int, 0 ≤ x → x < W → 0 ≤ y → y < H → 0 ≤ z → z < D →
      0 ≤ x + y * W + z * W * H ∧ x + y * W + z * W * H < W * H * D) ∧
    (∀ x y z x' y' z' : Int, 0 ≤ x → x < W → 0 ≤ y → y < H → 0 ≤ z → z < D →
      0 ≤ x' → x' < W → 0 ≤ y' → y' < H → 0 ≤ z' → z' < D →
      x + y * W + z * W * H = x' + y' * W + z' * W * H → x = x' ∧ y = y' ∧ z = z') ∧
    (∀ j : Int, 0 ≤ j → j < W * H * D →
      ∃ x y z : Int, 0 ≤ x ∧ x < W ∧ 0 ≤ y ∧ y < H ∧ 0 ≤ z ∧ z < D ∧
        x + y * W + z * W * H = j) := by
  refine ⟨?_, fun x y z hx0 hx hy0 hy hz0 hz => index_bounds W H D x y z hx0 hx hy0 hy hz0 hz,
    fun x y z x' y' z' hx0 hx hy0 hy _ _ hx0' hx' hy0' hy' _ _ h =>
      index_injective W H x y z x' y' z' hx0 hx hy0 hy hx0' hx' hy0' hy' h,
    fun j hj0 hj => index_encode W H D j hW hH hj0 hj⟩
  obtain ⟨r₁, hrun₁, hlen₁, hlow₁, -⟩ := forVoxels_filled W H D hW hH hD
    (fun x y z => some (noiseVoxel W H D scale octaves persistence x y z))
    (noiseVoxel W H D scale octaves persistence) out₁ h₁.ge (fun _ _ _ _ _ _ _ _ _ => rfl)
  obtain ⟨r₂, hrun₂, hlen₂, hlow₂, -⟩ := forVoxels_filled W H D hW hH hD
    (fun x y z => some (noiseVoxel W H D scale octaves persistence x y z))
    (noiseVoxel W H D scale octaves persistence) out₂ h₂.ge (fun _ _ _ _ _ _ _ _ _ => rfl)
  have hN : D * W * H = W * H * D := by ring
  have heq : r₁ = r₂ := by
    apply List.ext_getElem?
    intro j
    by_cases hj : (j : Int) < W * H * D
    · rw [hlow₁ j (by omega), hlow₂ j (by omega)]
    · rw [List.getElem?_eq_none (by omega), List.getElem?_eq_none (by omega)]
  subst heq
  have hg : ¬ (W ≤ 0 ∨ H ≤ 0 ∨ D ≤ 0 ∨ octaves ≤ 0) := by omega
  refine ⟨r₁, by simp [GeneratePerlinNoise3D, hg, hrun₁],
    by simp [GeneratePerlinNoise3D, hg, hrun₂], by omega, ?_⟩
  intro x y z hx0 hx hy0 hy hz0 hz
  obtain ⟨hi0, hi1⟩ := index_bounds W H D x y z hx0 hx hy0 hy hz0 hz
  obtain ⟨d1, d2, d3⟩ := index_decode W H x y z hx0 hx hy0 hy
  have := hlow₁ (x + y * W + z * W * H).toNat (by rw [Int.toNat_of_nonneg hi0]; omega)
  rw [this, Int.toNat_of_nonneg hi0]
  simp only [d1, d2, d3]

/-- The determinism theorem on a `2 × 1 × 1` volume from the buffers `[7, 7]`
and `[0, 5]`. -/
theorem GeneratePerlinNoise3D_deterministic_witness :
    ∃ r, GeneratePerlinNoise3D (.buf [7, 7] : Ptr ℚ) 2 1 1 3 2 (1 / 2) = some (.buf r) ∧
      GeneratePerlinNoise3D (.buf [0, 5] : Ptr ℚ) 2 1 1 3 2 (1 / 2) = some (.buf r) := by
  obtain ⟨⟨r, h₁, h₂, -, -⟩, -⟩ := GeneratePerlinNoise3D_deterministic
    ([7, 7] : List ℚ) [0, 5] 2 1 1 3 2 (1 / 2) (by decide) (by decide) (by decide)
    (by decide) (by rfl) (by rfl)
  exact ⟨r, h₁, h₂⟩

/-! ## Entry guards -/

/-- C14. Degenerate-input no-op: each of the four operations returns its
output pointer unchanged when a required buffer is null or a size parameter
is not positive: noise for `width`, `height`, `depth` or `octaves ≤ 0`, blur
for `width`, `height` or `depth ≤ 0`, histogram for `size ≤ 0` or `bins ≤ 0`
(no zeroing), threshold for `size ≤ 0`. -/
theorem degenerate_noop {K : Type} [LinearOrderedField K] [FloorRing K] (expf : K → K) :
    (∀ (outData : Ptr K) (W H D : Int) (scale : K) (octaves : Int) (persistence : K),
      outData = .null ∨ W ≤ 0 ∨ H ≤ 0 ∨ D ≤ 0 ∨ octaves ≤ 0 →
        GeneratePerlinNoise3D outData W H D scale octaves persistence = some outData) ∧
    (∀ (inData outData : Ptr K) (W H D : Int) (sigma : K),
      inData = .null ∨ outData = .null ∨ W ≤ 0 ∨ H ≤ 0 ∨ D ≤ 0 →
        ApplyGaussianBlur3D expf inData outData W H D sigma = some outData) ∧
    (∀ (data : Ptr K) (size : Int) (histogram : Ptr Int) (bins : Int) (minVal maxVal : K),
      data = .null ∨ histogram = .null ∨ size ≤ 0 ∨ bins ≤ 0 →
        CalculateHistogram data size histogram bins minVal maxVal = some histogram) ∧
    (∀ (inData : Ptr K) (outMask : Ptr Nat) (size : Int) (minThreshold maxThreshold : K),
      inData = .null ∨ outMask = .null ∨ size ≤ 0 →
        ApplyThreshold inData outMask size minThreshold maxThreshold = some outMask) := by
  refine ⟨?_, ?_, ?_, ?_⟩
  · intro outData W H D scale octaves persistence h
    cases outData with
    | null => rfl
    | buf out =>
      have hg : W ≤ 0 ∨ H ≤ 0 ∨ D ≤ 0 ∨ octaves ≤ 0 := by
        rcases h with h | h
        · exact Ptr.noConfusion h
        · exact h
      simp only [GeneratePerlinNoise3D, if_pos hg]
  · intro inData outData W H D sigma h
    cases inData with
    | null => rfl
    | buf src =>
      cases outData with
      | null => rfl
      | buf out =>
        have hg : W ≤ 0 ∨ H ≤ 0 ∨ D ≤ 0 := by
          rcases h with h | h | h
          · exact Ptr.noConfusion h
          · exact Ptr.noConfusion h
          · exact h
        simp only [ApplyGaussianBlur3D, if_pos hg]
  · intro data size histogram bins minVal maxVal h
    cases data with
    | null => rfl
    | buf d =>
      cases histogram with
      | null => rfl
      | buf hist =>
        have hg : size ≤ 0 ∨ bins ≤ 0 := by
          rcases h with h | h | h
          · exact Ptr.noConfusion h
          · exact Ptr.noConfusion h
          · exact h
        simp only [CalculateHistogram, if_pos hg]
  · intro inData outMask size minThreshold maxThreshold h
    cases inData with
    | null => rfl
    | buf d =>
      cases outMask with
      | null => rfl
      | buf m =>
        have hg : size ≤ 0 := by
          rcases h with h | h | h
          · exact Ptr.noConfusion h
          · exact Ptr.noConfusion h
          · exact h
        simp only [ApplyThreshold, if_pos hg]

/-- The no-op theorem at `width = 0` (and size 0 for the two linear scans):
each output buffer comes back as it was. -/
theorem degenerate_noop_witness :
    GeneratePerlinNoise3D (.buf [7, 7] : Ptr ℚ) 0 1 2 1 1 (1 / 2) = some (.buf [7, 7]) ∧
      ApplyGaussianBlur3D (fun _ => (1 : ℚ)) (.buf [1, 2]) (.buf [7, 7]) 0 1 2 1 =
        some (.buf [7, 7]) ∧
      CalculateHistogram (.buf [1, 2] : Ptr ℚ) 0 (.buf [7, 7]) 2 0 1 = some (.buf [7, 7]) ∧
      CalculateHistogram (.buf [1, 2] : Ptr ℚ) 2 (.buf [7, 7]) 0 0 1 = some (.buf [7, 7]) ∧
      ApplyThreshold (.buf [1, 2] : Ptr ℚ) (.buf [7, 7]) 0 0 1 = some (.buf [7, 7]) ∧
      ApplyGaussianBlur3D (fun _ => (1 : ℚ)) .null (.buf [7, 7]) 1 1 2 1 =
        some (.buf [7, 7]) := by
  obtain ⟨hn, hb, hh, ht⟩ := degenerate_noop (fun _ => (1 : ℚ))
  exact ⟨hn _ 0 1 2 1 1 (1 / 2) (Or.inr (Or.inl le_rfl)),
    hb _ _ 0 1 2 1 (Or.inr (Or.inr (Or.inl le_rfl))),
    hh _ 0 _ 2 0 1 (Or.inr (Or.inr (Or.inl le_rfl))),
    hh _ 2 _ 0 0 1 (Or.inr (Or.inr (Or.inr le_rfl))),
    ht _ _ 0 0 1 (Or.inr (Or.inr le_rfl)),
    hb .null _ 1 1 2 1 (Or.inl rfl)⟩

/-! ## The blur passes as field operators -/

/-- A sum over the offsets `[-h, h]` as a sum over the `2 h + 1` tap numbers. -/
theorem sum_Icc_eq_sum_range {M : Type} [AddCommMonoid M] (f : Int → M) (h : Int)
    (hh : 0 ≤ h) :
    ∑ k in Finset.Icc (-h) h, f k = ∑ j in Finset.range (2 * h + 1).toNat, f ((j : Int) - h) := by
  have himg : Finset.Icc (-h) h =
      (Finset.range (2 * h + 1).toNat).image (fun j : Nat => (j : Int) - h) := by
    ext k
    simp only [Finset.mem_Icc, Finset.mem_image, Finset.mem_range]
    constructor
    · intro hk
      exact ⟨(k + h).toNat, by omega, by omega⟩
    · rintro ⟨j, hj, rfl⟩
      omega
  rw [himg, Finset.sum_image]
  intro i _ j _ hij
  simp only at hij
  omega

/-- One voxel of a pass, on a source holding the field `F` and a kernel of
`2 half + 1` weights: the tap loop returns the field pass `convAxis`. -/
theorem blurAxis_voxel {K : Type} [LinearOrderedField K] [FloorRing K] (a : Axis)
    (src kernel : List K) (W H D half : Int) (F : Int → Int → Int → K) (hW : 0 < W)
    (hH : 0 < H) (hD : 0 < D) (hhalf : 0 ≤ half)
    (hker : (kernel.length : Int) = 2 * half + 1) (hsrc : Holds src W H D F) (x y z : Int)
    (hx0 : 0 ≤ x) (hx : x < W) (hy0 : 0 ≤ y) (hy : y < H) (hz0 : 0 ≤ z) (hz : z < D) :
    blurAxis a src kernel W H D half x y z =
      some (convAxis a (tapWeight kernel half) half W H D F x y z) := by
  have hw : ∀ k : Int, -half ≤ k → k ≤ half →
      readAt kernel (k + half) = some (tapWeight kernel half k) := by
    intro k h0 h1
    have hk : (k + half).toNat < kernel.length := by omega
    simp [tapWeight, readAt_of_nonneg _ _ (show 0 ≤ k + half by omega),
      List.getElem?_eq_getElem hk]
  cases a with
  | X =>
    have := blur_taps src kernel half
      (fun k => max 0 (min (W - 1) (x + k)) + y * W + z * W * H)
      (fun k => F (max 0 (min (W - 1) (x + k))) y z) (tapWeight kernel half) hhalf
      (fun k _ _ => hsrc _ y z (clamp_mem W _ hW).1 (clamp_mem W _ hW).2 hy0 hy hz0 hz) hw
    simp only [blurAxis, blurX, convAxis, sum_Icc_eq_sum_range _ half hhalf]
    exact this
  | Y =>
    have := blur_taps src kernel half
      (fun k => x + max 0 (min (H - 1) (y + k)) * W + z * W * H)
      (fun k => F x (max 0 (min (H - 1) (y + k))) z) (tapWeight kernel half) hhalf
      (fun k _ _ => hsrc x _ z hx0 hx (clamp_mem H _ hH).1 (clamp_mem H _ hH).2 hz0 hz) hw
    simp only [blurAxis, blurY, convAxis, sum_Icc_eq_sum_range _ half hhalf]
    exact this
  | Z =>
    have := blur_taps src kernel half
      (fun k => x + y * W + max 0 (min (D - 1) (z + k)) * W * H)
      (fun k => F x y (max 0 (min (D - 1) (z + k)))) (tapWeight kernel half) hhalf
      (fun k _ _ => hsrc x y _ hx0 hx hy0 hy (clamp_mem D _ hD).1 (clamp_mem D _ hD).2) hw
    simp only [blurAxis, blurZ, convAxis, sum_Icc_eq_sum_range _ half hhalf]
    exact this

/-- One full pass along the axis `a`: it runs to its end, and the output
buffer holds the field pass of the source field and is unchanged past the
volume. -/
theorem blurPass_field {K : Type} [LinearOrderedField K] [FloorRing K] (a : Axis)
    (src kernel out : List K) (W H D half : Int) (F : Int → Int → Int → K) (hW : 0 < W)
    (hH : 0 < H) (hD : 0 < D) (hhalf : 0 ≤ half)
    (hker : (kernel.length : Int) = 2 * half + 1) (hsrc : Holds src W H D F)
    (hout : W * H * D ≤ (out.length : Int)) :
    ∃ out', forVoxels W H D (blurAxis a src kernel W H D half) out = some out' ∧
      out'.length = out.length ∧
      Holds out' W H D (convAxis a (tapWeight kernel half) half W H D F) ∧
      (∀ j : Nat, W * H * D ≤ (j : Int) → out'[j]? = out[j]?) := by
  obtain ⟨out', hrun, hlen, hvox, hframe⟩ := forVoxels_spec W H D hW hH hD
    (blurAxis a src kernel W H D half) (convAxis a (tapWeight kernel half) half W H D F) out
    hout (fun x y z hx0 hx hy0 hy hz0 hz =>
      blurAxis_voxel a src kernel W H D half F hW hH hD hhalf hker hsrc x y z hx0 hx hy0 hy
        hz0 hz)
  refine ⟨out', hrun, hlen, fun x y z hx0 hx hy0 hy hz0 hz => ?_, hframe⟩
  rw [readAt_of_nonneg _ _ (index_bounds W H D x y z hx0 hx hy0 hy hz0 hz).1]
  exact hvox x y z hx0 hx hy0 hy hz0 hz

/-- A buffer that covers the volume holds its own field. -/
theorem Holds_fieldOf {K : Type} [LinearOrderedField K] [FloorRing K] (cells : List K)
    (W H D : Int) (hlen : W * H * D ≤ (cells.length : Int)) :
    Holds cells W H D (fieldOf cells W H) := by
  intro x y z hx0 hx hy0 hy hz0 hz
  obtain ⟨hi0, hi1⟩ := index_bounds W H D x y z hx0 hx hy0 hy hz0 hz
  have hlt : (x + y * W + z * W * H).toNat < cells.length := by omega
  simp [fieldOf, readAt_of_nonneg _ _ hi0, List.getElem?_eq_getElem hlt]

/-- The three passes in any order `a`, `b`, `c`: the run reaches its end and
the output holds the three field passes applied in that order. -/
theorem blurInOrder_field {K : Type} [LinearOrderedField K] [FloorRing K] (a b c : Axis)
    (expf : K → K) (src out : List K) (W H D : Int) (sigma : K) (hW : 0 < W) (hH : 0 < H)
    (hD : 0 < D) (hsrc : W * H * D ≤ (src.length : Int))
    (hout : W * H * D ≤ (out.length : Int)) :
    ∃ out', blurInOrder a b c expf src out W H D sigma = some out' ∧
      out'.length = out.length ∧
      Holds out' W H D
        (convAxis c (tapWeight (gaussianKernel expf sigma) (halfKernel sigma))
          (halfKernel sigma) W H D
          (convAxis b (tapWeight (gaussianKernel expf sigma) (halfKernel sigma))
            (halfKernel sigma) W H D
            (convAxis a (tapWeight (gaussianKernel expf sigma) (halfKernel sigma))
              (halfKernel sigma) W H D (fieldOf src W H)))) ∧
      (∀ j : Nat, W * H * D ≤ (j : Int) → out'[j]? = out[j]?) := by
  obtain ⟨hsize, hhalf⟩ := kernelSize_eq_half sigma
  have hklen : ((gaussianKernel expf sigma).length : Int) = 2 * halfKernel sigma + 1 := by
    have : (gaussianKernel expf sigma).length = (kernelSize sigma).toNat := by
      simp [gaussianKernel]
    omega
  have hrep : W * H * D ≤ ((List.replicate (W * H * D).toNat (0 : K)).length : Int) := by
    simp
  obtain ⟨t1, hrun1, -, hF1, -⟩ := blurPass_field a src (gaussianKernel expf sigma)
    (List.replicate (W * H * D).toNat 0) W H D (halfKernel sigma) _ hW hH hD (by omega) hklen
    (Holds_fieldOf src W H D hsrc) hrep
  obtain ⟨t2, hrun2, -, hF2, -⟩ := blurPass_field b t1 (gaussianKernel expf sigma)
    (List.replicate (W * H * D).toNat 0) W H D (halfKernel sigma) _ hW hH hD (by omega) hklen
    hF1 hrep
  obtain ⟨t3, hrun3, hlen3, hF3, hframe⟩ := blurPass_field c t2 (gaussianKernel expf sigma)
    out W H D (halfKernel sigma) _ hW hH hD (by omega) hklen hF2 hout
  refine ⟨t3, ?_, hlen3, hF3, hframe⟩
  simp [blurInOrder, hrun1, hrun2, hrun3]

/-- For `sigma > 0` and positive dimensions `ApplyGaussianBlur3D` is the three
passes in the order X, Y, Z. -/
theorem ApplyGaussianBlur3D_eq_passes {K : Type} [LinearOrderedField K] [FloorRing K]
    (expf : K → K) (src out : List K) (W H D : Int) (sigma : K) (hW : 0 < W) (hH : 0 < H)
    (hD : 0 < D) (hsigma : 0 < sigma) :
    ApplyGaussianBlur3D expf (.buf src) (.buf out) W H D sigma =
      (blurInOrder .X .Y .Z expf src out W H D sigma).map Ptr.buf := by
  have hg : ¬ (W ≤ 0 ∨ H ≤ 0 ∨ D ≤ 0) := by omega
  simp only [ApplyGaussianBlur3D, if_neg hg, if_neg (not_le.mpr hsigma), blurInOrder, blurAxis]
  rcases forVoxels W H D _ _ with _ | t1
  · rfl
  · simp only [Option.bind_eq_bind, Option.some_bind]
    rcases forVoxels W H D _ _ with _ | t2
    · rfl
    · simp only [Option.some_bind]
      rcases forVoxels W H D _ _ with _ | t3 <;> rfl

/-- The passes along X and Y commute. -/
theorem conv_comm_XY {K : Type} [LinearOrderedField K] (w : Int → K) (half W H D : Int)
    (F : Int → Int → Int → K) :
    convAxis .X w half W H D (convAxis .Y w half W H D F) =
      convAxis .Y w half W H D (convAxis .X w half W H D F) := by
  funext x y z
  simp only [convAxis, Finset.sum_mul]
  rw [Finset.sum_comm]
  exact Finset.sum_congr rfl fun _ _ => Finset.sum_congr rfl fun _ _ => by ring

/-- The passes along X and Z commute. -/
theorem conv_comm_XZ {K : Type} [LinearOrderedField K] (w : Int → K) (half W H D : Int)
    (F : Int → Int → Int → K) :
    convAxis .X w half W H D (convAxis .Z w half W H D F) =
      convAxis .Z w half W H D (convAxis .X w half W H D F) := by
  funext x y z
  simp only [convAxis, Finset.sum_mul]
  rw [Finset.sum_comm]
  exact Finset.sum_congr rfl fun _ _ => Finset.sum_congr rfl fun _ _ => by ring

/-- The passes along Y and Z commute. -/
theorem conv_comm_YZ {K : Type} [LinearOrderedField K] (w : Int → K) (half W H D : Int)
    (F : Int → Int → Int → K) :
    convAxis .Y w half W H D (convAxis .Z w half W H D F) =
      convAxis .Z w half W H D (convAxis .Y w half W H D F) := by
  funext x y z
  simp only [convAxis, Finset.sum_mul]
  rw [Finset.sum_comm]
  exact Finset.sum_congr rfl fun _ _ => Finset.sum_congr rfl fun _ _ => by ring

/-- The three passes in the order X, Y, Z compute the direct convolution. -/
theorem conv_XYZ {K : Type} [LinearOrderedField K] (w : Int → K) (half W H D : Int)
    (F : Int → Int → Int → K) :
    convAxis .Z w half W H D (convAxis .Y w half W H D (convAxis .X w half W H D F)) =
      directConv w half W H D F := by
  funext x y z
  simp only [convAxis, directConv, Finset.sum_mul]
  calc ∑ kz in Finset.Icc (-half) half, ∑ ky in Finset.Icc (-half) half,
        ∑ kx in Finset.Icc (-half) half,
          F (max 0 (min (W - 1) (x + kx))) (max 0 (min (H - 1) (y + ky)))
            (max 0 (min (D - 1) (z + kz))) * w kx * w ky * w kz
      = ∑ kz in Finset.Icc (-half) half, ∑ kx in Finset.Icc (-half) half,
        ∑ ky in Finset.Icc (-half) half,
          F (max 0 (min (W - 1) (x + kx))) (max 0 (min (H - 1) (y + ky)))
            (max 0 (min (D - 1) (z + kz))) * w kx * w ky * w kz :=
        Finset.sum_congr rfl fun _ _ => Finset.sum_comm
    _ = ∑ kx in Finset.Icc (-half) half, ∑ kz in Finset.Icc (-half) half,
        ∑ ky in Finset.Icc (-half) half,
          F (max 0 (min (W - 1) (x + kx))) (max 0 (min (H - 1) (y + ky)))
            (max 0 (min (D - 1) (z + kz))) * w kx * w ky * w kz := Finset.sum_comm
    _ = ∑ kx in Finset.Icc (-half) half, ∑ ky in Finset.Icc (-half) half,
        ∑ kz in Finset.Icc (-half) half,
          F (max 0 (min (W - 1) (x + kx))) (max 0 (min (H - 1) (y + ky)))
            (max 0 (min (D - 1) (z + kz))) * w kx * w ky * w kz :=
        Finset.sum_congr rfl fun _ _ => Finset.sum_comm
    _ = _ := Finset.sum_congr rfl fun _ _ => Finset.sum_congr rfl fun _ _ =>
        Finset.sum_congr rfl fun _ _ => by ring

/-- Three passes along the three axes, in any order, compute the direct
convolution. -/
theorem conv_any_order {K : Type} [LinearOrderedField K] (a b c : Axis) (hab : a ≠ b)
    (hbc : b ≠ c) (hac : a ≠ c) (w : Int → K) (half W H D : Int) (F : Int → Int → Int → K) :
    convAxis c w half W H D (convAxis b w half W H D (convAxis a w half W H D F)) =
      directConv w half W H D F :=
  match a, b, c, hab, hbc, hac with
  | .X, .Y, .Z, _, _, _ => conv_XYZ w half W H D F
  | .Y, .X, .Z, _, _, _ => by rw [conv_comm_XY, conv_XYZ]
  | .X, .Z, .Y, _, _, _ => by rw [conv_comm_YZ, conv_XYZ]
  | .Z, .X, .Y, _, _, _ => by rw [conv_comm_XZ, conv_comm_YZ, conv_XYZ]
  | .Y, .Z, .X, _, _, _ => by rw [conv_comm_XZ, conv_comm_XY, conv_XYZ]
  | .Z, .Y, .X, _, _, _ => by rw [conv_comm_YZ, conv_comm_XZ, conv_comm_XY, conv_XYZ]
  | .X, .X, _, h, _, _ => absurd rfl h
  | .Y, .Y, _, h, _, _ => absurd rfl h
  | .Z, .Z, _, h, _, _ => absurd rfl h
  | _, .X, .X, _, h, _ => absurd rfl h
  | _, .Y, .Y, _, h, _ => absurd rfl h
  | _, .Z, .Z, _, h, _ => absurd rfl h
  | .X, _, .X, _, _, h => absurd rfl h
  | .Y, _, .Y, _, _, h => absurd rfl h
  | .Z, _, .Z, _, _, h => absurd rfl h

/-- Two buffers that hold the same field on the volume and agree with a third
buffer past it are equal. -/
theorem Holds_ext {K : Type} [LinearOrderedField K] [FloorRing K] (t₁ t₂ out : List K)
    (W H D : Int) (F : Int → Int → Int → K) (hW : 0 < W) (hH : 0 < H)
    (hF₁ : Holds t₁ W H D F) (hF₂ : Holds t₂ W H D F)
    (hf₁ : ∀ j : Nat, W * H * D ≤ (j : Int) → t₁[j]? = out[j]?)
    (hf₂ : ∀ j : Nat, W * H * D ≤ (j : Int) → t₂[j]? = out[j]?) : t₁ = t₂ := by
  apply List.ext_getElem?
  intro j
  by_cases hj : (j : Int) < W * H * D
  · obtain ⟨x, y, z, hx0, hx, hy0, hy, hz0, hz, hidx⟩ :=
      index_encode W H D j hW hH (Int.natCast_nonneg j) hj
    have h₁ := hF₁ x y z hx0 hx hy0 hy hz0 hz
    have h₂ := hF₂ x y z hx0 hx hy0 hy hz0 hz
    rw [hidx, readAt_natCast] at h₁ h₂
    rw [h₁, h₂]
  · rw [hf₁ j (by omega), hf₂ j (by omega)]

/-- C17. Separable blur equals direct 3D convolution: for
`width, height, depth > 0` and `sigma > 0` the three passes store at voxel
`(x, y, z)` the triple sum over `kx, ky, kz ∈ [-halfKernel, halfKernel]` of
`K[kx+h] · K[ky+h] · K[kz+h] · input[clamp(x+kx), clamp(y+ky), clamp(z+kz)]`;
and the three axis passes run in any other order return the same buffer. -/
theorem ApplyGaussianBlur3D_direct {K : Type} [LinearOrderedField K] [FloorRing K]
    (expf : K → K) (src out : List K) (W H D : Int) (sigma : K) (hW : 0 < W) (hH : 0 < H)
    (hD : 0 < D) (hsigma : 0 < sigma) (hsrc : W * H * D ≤ (src.length : Int))
    (hout : W * H * D ≤ (out.length : Int)) :
    ∃ out', ApplyGaussianBlur3D expf (.buf src) (.buf out) W H D sigma = some (.buf out') ∧
      (∀ x y z : Int, 0 ≤ x → x < W → 0 ≤ y → y < H → 0 ≤ z → z < D →
        out'[(x + y * W + z * W * H).toNat]? = some
          (∑ kx in Finset.Icc (-halfKernel sigma) (halfKernel sigma),
            ∑ ky in Finset.Icc (-halfKernel sigma) (halfKernel sigma),
              ∑ kz in Finset.Icc (-halfKernel sigma) (halfKernel sigma),
                tapWeight (gaussianKernel expf sigma) (halfKernel sigma) kx *
                  tapWeight (gaussianKernel expf sigma) (halfKernel sigma) ky *
                  tapWeight (gaussianKernel expf sigma) (halfKernel sigma) kz *
                  fieldOf src W H (max 0 (min (W - 1) (x + kx)))
                    (max 0 (min (H - 1) (y + ky))) (max 0 (min (D - 1) (z + kz))))) ∧
      (∀ a b c : Axis, a ≠ b → b ≠ c → a ≠ c →
        blurInOrder a b c expf src out W H D sigma = some out') := by
  obtain ⟨out', hrun, hlen, hF, hframe⟩ :=
    blurInOrder_field .X .Y .Z expf src out W H D sigma hW hH hD hsrc hout
  rw [conv_XYZ] at hF
  refine ⟨out', ?_, fun x y z hx0 hx hy0 hy hz0 hz => ?_, fun a b c hab hbc hac => ?_⟩
  · rw [ApplyGaussianBlur3D_eq_passes expf src out W H D sigma hW hH hD hsigma, hrun]
    rfl
  · have := hF x y z hx0 hx hy0 hy hz0 hz
    rw [readAt_of_nonneg _ _ (index_bounds W H D x y z hx0 hx hy0 hy hz0 hz).1] at this
    rw [this]
    rfl
  · obtain ⟨out'', hrun', hlen', hF', hframe'⟩ :=
      blurInOrder_field a b c expf src out W H D sigma hW hH hD hsrc hout
    rw [conv_any_order a b c hab hbc hac] at hF'
    rw [hrun', Holds_ext out'' out' out W H D _ hW hH hF' hF hframe' hframe]


/-- The direct-convolution theorem on a `2 × 2 × 1` volume with `sigma = 1/2`
and the positive function `1 / (1 + x²)` for `expf`: the orders Z, Y, X and
Y, X, Z give the buffer of the source order. -/
theorem ApplyGaussianBlur3D_direct_witness :
    ∃ out', ApplyGaussianBlur3D (fun x : ℚ => 1 / (1 + x * x)) (.buf [1, 2, 3, 4])
        (.buf [0, 0, 0, 0, 9]) 2 2 1 (1 / 2) = some (.buf out') ∧
      blurInOrder .Z .Y .X (fun x : ℚ => 1 / (1 + x * x)) [1, 2, 3, 4] [0, 0, 0, 0, 9]
        2 2 1 (1 / 2) = some out' ∧
      blurInOrder .Y .X .Z (fun x : ℚ => 1 / (1 + x * x)) [1, 2, 3, 4] [0, 0, 0, 0, 9]
        2 2 1 (1 / 2) = some out' := by
  obtain ⟨out', hrun, -, horder⟩ := ApplyGaussianBlur3D_direct (fun x : ℚ => 1 / (1 + x * x))
    [1, 2, 3, 4] [0, 0, 0, 0, 9] 2 2 1 (1 / 2) (by decide) (by decide) (by decide)
    (by norm_num) (by simp) (by simp)
  exact ⟨out', hrun, horder .Z .Y .X (by decide) (by decide) (by decide),
    horder .Y .X .Z (by decide) (by decide) (by decide)⟩

/-- C15. All indexing in the blur is in bounds: for `width, height, depth > 0`,
`sigma > 0`, an in-range voxel and an offset `k ∈ [-halfKernel, halfKernel]`,
the kernel index `k + halfKernel` lies in `[0, kernelSize)`, each clamped
coordinate lies in `[0, dim)`, every flat index read or written by the X, Y
and Z passes lies in `[0, width * height * depth)`; and the call, whose every
access is checked, returns a buffer. -/
theorem ApplyGaussianBlur3D_in_bounds {K : Type} [LinearOrderedField K] [FloorRing K]
    (expf : K → K) (src out : List K) (W H D : Int) (sigma : K) (hW : 0 < W) (hH : 0 < H)
    (hD : 0 < D) (hsigma : 0 < sigma) (hsrc : W * H * D ≤ (src.length : Int))
    (hout : W * H * D ≤ (out.length : Int)) :
    ((gaussianKernel expf sigma).length : Int) = kernelSize sigma ∧
    (∀ k : Int, -halfKernel sigma ≤ k → k ≤ halfKernel sigma →
      0 ≤ k + halfKernel sigma ∧ k + halfKernel sigma < kernelSize sigma) ∧
    (∀ x y z k : Int, 0 ≤ x → x < W → 0 ≤ y → y < H → 0 ≤ z → z < D →
      (0 ≤ max 0 (min (W - 1) (x + k)) ∧ max 0 (min (W - 1) (x + k)) < W) ∧
      (0 ≤ max 0 (min (H - 1) (y + k)) ∧ max 0 (min (H - 1) (y + k)) < H) ∧
      (0 ≤ max 0 (min (D - 1) (z + k)) ∧ max 0 (min (D - 1) (z + k)) < D) ∧
      (0 ≤ max 0 (min (W - 1) (x + k)) + y * W + z * W * H ∧
        max 0 (min (W - 1) (x + k)) + y * W + z * W * H < W * H * D) ∧
      (0 ≤ x + max 0 (min (H - 1) (y + k)) * W + z * W * H ∧
        x + max 0 (min (H - 1) (y + k)) * W + z * W * H < W * H * D) ∧
      (0 ≤ x + y * W + max 0 (min (D - 1) (z + k)) * W * H ∧
        x + y * W + max 0 (min (D - 1) (z + k)) * W * H < W * H * D) ∧
      (0 ≤ x + y * W + z * W * H ∧ x + y * W + z * W * H < W * H * D)) ∧
    ∃ out', ApplyGaussianBlur3D expf (.buf src) (.buf out) W H D sigma = some (.buf out') ∧
      out'.length = out.length := by
  obtain ⟨hsize, hhalf⟩ := kernelSize_eq_half sigma
  have h3 := kernelSize_ge sigma
  refine ⟨?_, fun k h0 h1 => by omega, ?_, ?_⟩
  · have : (gaussianKernel expf sigma).length = (kernelSize sigma).toNat := by
      simp [gaussianKernel]
    omega
  · intro x y z k hx0 hx hy0 hy hz0 hz
    have cx := clamp_mem W (x + k) hW
    have cy := clamp_mem H (y + k) hH
    have cz := clamp_mem D (z + k) hD
    exact ⟨cx, cy, cz, index_bounds W H D _ y z cx.1 cx.2 hy0 hy hz0 hz,
      index_bounds W H D x _ z hx0 hx cy.1 cy.2 hz0 hz,
      index_bounds W H D x y _ hx0 hx hy0 hy cz.1 cz.2,
      index_bounds W H D x y z hx0 hx hy0 hy hz0 hz⟩
  · obtain ⟨out', hrun, hlen, -, -⟩ :=
      blurInOrder_field .X .Y .Z expf src out W H D sigma hW hH hD hsrc hout
    refine ⟨out', ?_, hlen⟩
    rw [ApplyGaussianBlur3D_eq_passes expf src out W H D sigma hW hH hD hsigma, hrun]
    rfl

/-- The bounds theorem on a `2 × 2 × 1` volume with `sigma = 1/2`: the call
returns a buffer. -/
theorem ApplyGaussianBlur3D_in_bounds_witness :
    ∃ out', ApplyGaussianBlur3D (fun x : ℚ => 1 / (1 + x * x)) (.buf [1, 2, 3, 4])
        (.buf [0, 0, 0, 0, 9]) 2 2 1 (1 / 2) = some (.buf out') ∧ out'.length = 5 :=
  (ApplyGaussianBlur3D_in_bounds (fun x : ℚ => 1 / (1 + x * x)) [1, 2, 3, 4] [0, 0, 0, 0, 9]
    2 2 1 (1 / 2) (by decide) (by decide) (by decide) (by norm_num) (by simp)
    (by simp)).2.2.2

/-- The tap weights of the Gaussian kernel are non-negative when `expf` is
positive. -/
theorem tapWeight_nonneg {K : Type} [LinearOrderedField K] [FloorRing K] (expf : K → K)
    (hexp : ∀ x, 0 < expf x) (sigma : K) (half k : Int) :
    0 ≤ tapWeight (gaussianKernel expf sigma) half k := by
  unfold tapWeight readAt
  split_ifs with h
  · cases hget : (gaussianKernel expf sigma)[(k + half).toNat]? with
    | none => simp
    | some v =>
      have hmem : v ∈ gaussianKernel expf sigma := List.getElem?_mem hget
      simp only [gaussianKernel, List.mem_map] at hmem
      obtain ⟨i, -, rfl⟩ := hmem
      simp only [Option.getD_some]
      exact (div_pos (hexp _) (kernelSum_pos expf hexp sigma)).le
  · simp

/-- The tap weights of the Gaussian kernel sum to 1 when `expf` is positive. -/
theorem tapWeight_sum {K : Type} [LinearOrderedField K] [FloorRing K] (expf : K → K)
    (hexp : ∀ x, 0 < expf x) (sigma : K) :
    ∑ k in Finset.Icc (-halfKernel sigma) (halfKernel sigma),
      tapWeight (gaussianKernel expf sigma) (halfKernel sigma) k = 1 := by
  obtain ⟨hsize, hhalf⟩ := kernelSize_eq_half sigma
  have hlen : (gaussianKernel expf sigma).length = (kernelSize sigma).toNat := by
    simp [gaussianKernel]
  rw [sum_Icc_eq_sum_range _ _ (by omega : 0 ≤ halfKernel sigma)]
  have hn : (2 * halfKernel sigma + 1).toNat = (gaussianKernel expf sigma).length := by omega
  have hterm : ∀ j : Nat, tapWeight (gaussianKernel expf sigma) (halfKernel sigma)
      ((j : Int) - halfKernel sigma) = (gaussianKernel expf sigma)[j]?.getD 0 := by
    intro j
    have e : (j : Int) - halfKernel sigma + halfKernel sigma = (j : Int) := by ring
    rw [tapWeight, e, readAt_natCast]
  simp only [hterm]
  rw [hn, ← sum_eq_sum_cells, gaussianKernel_sum expf hexp sigma]

/-- A pass with non-negative weights summing to 1 keeps a field between the
bounds it has on the volume. -/
theorem convAxis_bounds {K : Type} [LinearOrderedField K] (a : Axis) (w : Int → K)
    (half W H D : Int) (F : Int → Int → Int → K) (lo hi : K) (hW : 0 < W) (hH : 0 < H)
    (hD : 0 < D) (hw0 : ∀ k, 0 ≤ w k) (hw1 : ∑ k in Finset.Icc (-half) half, w k = 1)
    (hF : ∀ x y z : Int, 0 ≤ x → x < W → 0 ≤ y → y < H → 0 ≤ z → z < D →
      lo ≤ F x y z ∧ F x y z ≤ hi)
    (x y z : Int) (hx0 : 0 ≤ x) (hx : x < W) (hy0 : 0 ≤ y) (hy : y < H) (hz0 : 0 ≤ z)
    (hz : z < D) :
    lo ≤ convAxis a w half W H D F x y z ∧ convAxis a w half W H D F x y z ≤ hi := by
  have hlo : lo = ∑ k in Finset.Icc (-half) half, lo * w k := by
    rw [← Finset.mul_sum, hw1, mul_one]
  have hhi : hi = ∑ k in Finset.Icc (-half) half, hi * w k := by
    rw [← Finset.mul_sum, hw1, mul_one]
  have hterm : ∀ k : Int,
      lo ≤ (match a with
        | .X => F (max 0 (min (W - 1) (x + k))) y z
        | .Y => F x (max 0 (min (H - 1) (y + k))) z
        | .Z => F x y (max 0 (min (D - 1) (z + k)))) ∧
      (match a with
        | .X => F (max 0 (min (W - 1) (x + k))) y z
        | .Y => F x (max 0 (min (H - 1) (y + k))) z
        | .Z => F x y (max 0 (min (D - 1) (z + k)))) ≤ hi := by
    intro k
    cases a with
    | X => exact hF _ y z (clamp_mem W _ hW).1 (clamp_mem W _ hW).2 hy0 hy hz0 hz
    | Y => exact hF x _ z hx0 hx (clamp_mem H _ hH).1 (clamp_mem H _ hH).2 hz0 hz
    | Z => exact hF x y _ hx0 hx hy0 hy (clamp_mem D _ hD).1 (clamp_mem D _ hD).2
  constructor
  · conv_lhs => rw [hlo]
    exact Finset.sum_le_sum fun k _ => mul_le_mul_of_nonneg_right (hterm k).1 (hw0 k)
  · conv_rhs => rw [hhi]
    exact Finset.sum_le_sum fun k _ => mul_le_mul_of_nonneg_right (hterm k).2 (hw0 k)

/-- C18. Maximum principle: for `width, height, depth > 0`, every `sigma` and
a positive exponential `expf`, if `lo ≤ input[i] ≤ hi` for all
`i < width * height * depth` then `ApplyGaussianBlur3D` returns with
`lo ≤ output[i] ≤ hi` for all those `i`. -/
theorem ApplyGaussianBlur3D_max_principle {K : Type} [LinearOrderedField K] [FloorRing K]
    (expf : K → K) (hexp : ∀ x, 0 < expf x) (src out : List K) (W H D : Int)
    (sigma lo hi : K) (hW : 0 < W) (hH : 0 < H) (hD : 0 < D)
    (hsrc : ∀ j : Nat, (j : Int) < W * H * D → ∃ v, src[j]? = some v ∧ lo ≤ v ∧ v ≤ hi)
    (hout : W * H * D ≤ (out.length : Int)) :
    ∃ out', ApplyGaussianBlur3D expf (.buf src) (.buf out) W H D sigma = some (.buf out') ∧
      ∀ j : Nat, (j : Int) < W * H * D → ∃ v, out'[j]? = some v ∧ lo ≤ v ∧ v ≤ hi := by
  have hN : 0 < W * H * D := mul_pos (mul_pos hW hH) hD
  have hlen : W * H * D ≤ (src.length : Int) := by
    by_contra h
    obtain ⟨v, hv, -⟩ := hsrc src.length (by omega)
    rw [List.getElem?_eq_none le_rfl] at hv
    exact Option.noConfusion hv
  by_cases hsigma : sigma ≤ 0
  · obtain ⟨out', hrun, -, hlow, -⟩ := copyCells_spec src out (W * H * D) hN.le hlen hout
    have hg : ¬ (W ≤ 0 ∨ H ≤ 0 ∨ D ≤ 0) := by omega
    refine ⟨out', by simp [ApplyGaussianBlur3D, hg, hsigma, hrun], fun j hj => ?_⟩
    rw [hlow j hj]
    exact hsrc j hj
  · have hpos : 0 < sigma := not_le.mp hsigma
    obtain ⟨out', hrun, -, hF, -⟩ :=
      blurInOrder_field .X .Y .Z expf src out W H D sigma hW hH hD hlen hout
    refine ⟨out', ?_, fun j hj => ?_⟩
    · rw [ApplyGaussianBlur3D_eq_passes expf src out W H D sigma hW hH hD hpos, hrun]
      rfl
    · obtain ⟨x, y, z, hx0, hx, hy0, hy, hz0, hz, hidx⟩ :=
        index_encode W H D j hW hH (Int.natCast_nonneg j) hj
      have hcell := hF x y z hx0 hx hy0 hy hz0 hz
      rw [hidx, readAt_natCast] at hcell
      have hw0 := tapWeight_nonneg expf hexp sigma (halfKernel sigma)
      have hw1 := tapWeight_sum expf hexp sigma
      have hF0 : ∀ x y z : Int, 0 ≤ x → x < W → 0 ≤ y → y < H → 0 ≤ z → z < D →
          lo ≤ fieldOf src W H x y z ∧ fieldOf src W H x y z ≤ hi := by
        intro x y z hx0 hx hy0 hy hz0 hz
        obtain ⟨hi0, hi1⟩ := index_bounds W H D x y z hx0 hx hy0 hy hz0 hz
        obtain ⟨v, hv, hb⟩ := hsrc (x + y * W + z * W * H).toNat (by omega)
        simp only [fieldOf, readAt_of_nonneg _ _ hi0, hv, Option.getD_some]
        exact hb
      exact ⟨_, hcell, convAxis_bounds .Z _ _ W H D _ lo hi hW hH hD hw0 hw1
        (convAxis_bounds .Y _ _ W H D _ lo hi hW hH hD hw0 hw1
          (convAxis_bounds .X _ _ W H D _ lo hi hW hH hD hw0 hw1 hF0))
        x y z hx0 hx hy0 hy hz0 hz⟩

/-- The maximum principle for the real exponential on a `2 × 1 × 1` volume
with values in `[1, 2]` and `sigma = 1`. -/
theorem ApplyGaussianBlur3D_max_principle_witness :
    ∃ out', ApplyGaussianBlur3D Real.exp (.buf [1, 2]) (.buf [0, 0]) 2 1 1 1 =
        some (.buf out') ∧
      (∃ v, out'[0]? = some v ∧ 1 ≤ v ∧ v ≤ 2) ∧ (∃ v, out'[1]? = some v ∧ 1 ≤ v ∧ v ≤ 2) := by
  obtain ⟨out', hrun, hb⟩ := ApplyGaussianBlur3D_max_principle Real.exp Real.exp_pos
    [1, 2] [0, 0] 2 1 1 1 1 2 (by decide) (by decide) (by decide)
    (fun j hj => by
      have : j < 2 := by omega
      interval_cases j
      · exact ⟨1, rfl, le_rfl, one_le_two⟩
      · exact ⟨2, rfl, one_le_two, le_rfl⟩)
    (by simp)
  exact ⟨out', hrun, hb 0 (by decide), hb 1 (by decide)⟩

/-! ## Lattice points and the last bin -/

/-- The ease curve maps `[0, 1)` into `[0, 1)`. -/
theorem smoothstep1_lt_one {K : Type} [LinearOrderedField K] (t : K) (h0 : 0 ≤ t)
    (h1 : t < 1) : smoothstep1 t < 1 := by
  unfold smoothstep1
  have h : 0 < (1 - t) * (1 - t) * (1 + 2 * t) :=
    mul_pos (mul_pos (by linarith) (by linarith)) (by linarith)
  nlinarith

/-- C19. The interpolator reproduces the hash at lattice points,
`perlin3D(xi, yi, zi) = hash3(xi, yi, zi)` for all integers, since
`smoothstep1(0) = 0`; `smoothstep1` maps `[0, 1)` into `[0, 1)`; and at every
point the result lies between the minimum and the maximum of the 8 corner
hash values. -/
theorem perlin3D_lattice {K : Type} [LinearOrderedField K] [FloorRing K] :
    (∀ xi yi zi : Int, perlin3D (xi : K) (yi : K) (zi : K) = hash3 xi yi zi) ∧
    (smoothstep1 (0 : K) = 0) ∧
    (∀ t : K, 0 ≤ t → t < 1 → 0 ≤ smoothstep1 t ∧ smoothstep1 t < 1) ∧
    (∀ x y z : K,
      min (min (min (hash3 ⌊x⌋ ⌊y⌋ ⌊z⌋) (hash3 (⌊x⌋ + 1) ⌊y⌋ ⌊z⌋))
          (min (hash3 ⌊x⌋ (⌊y⌋ + 1) ⌊z⌋) (hash3 (⌊x⌋ + 1) (⌊y⌋ + 1) ⌊z⌋)))
        (min (min (hash3 ⌊x⌋ ⌊y⌋ (⌊z⌋ + 1)) (hash3 (⌊x⌋ + 1) ⌊y⌋ (⌊z⌋ + 1)))
          (min (hash3 ⌊x⌋ (⌊y⌋ + 1) (⌊z⌋ + 1)) (hash3 (⌊x⌋ + 1) (⌊y⌋ + 1) (⌊z⌋ + 1))))
        ≤ perlin3D x y z ∧
      perlin3D x y z ≤
        max (max (max (hash3 ⌊x⌋ ⌊y⌋ ⌊z⌋) (hash3 (⌊x⌋ + 1) ⌊y⌋ ⌊z⌋))
          (max (hash3 ⌊x⌋ (⌊y⌋ + 1) ⌊z⌋) (hash3 (⌊x⌋ + 1) (⌊y⌋ + 1) ⌊z⌋)))
        (max (max (hash3 ⌊x⌋ ⌊y⌋ (⌊z⌋ + 1)) (hash3 (⌊x⌋ + 1) ⌊y⌋ (⌊z⌋ + 1)))
          (max (hash3 ⌊x⌋ (⌊y⌋ + 1) (⌊z⌋ + 1))
            (hash3 (⌊x⌋ + 1) (⌊y⌋ + 1) (⌊z⌋ + 1))))) := by
  refine ⟨fun xi yi zi => ?_, by simp [smoothstep1],
    fun t h0 h1 => ⟨(smoothstep1_mem t h0 h1.le).1, smoothstep1_lt_one t h0 h1⟩,
    fun x y z => ?_⟩
  · simp [perlin3D, smoothstep1, lerp1]
  · have hu := ease_mem x
    have hv := ease_mem y
    have hw := ease_mem z
    unfold perlin3D
    simp only []
    refine lerp1_mem _ _ _ _ _ hw.1 hw.2
      (lerp1_mem _ _ _ _ _ hv.1 hv.2
        (lerp1_mem _ _ _ _ _ hu.1 hu.2 ⟨?_, ?_⟩ ⟨?_, ?_⟩)
        (lerp1_mem _ _ _ _ _ hu.1 hu.2 ⟨?_, ?_⟩ ⟨?_, ?_⟩))
      (lerp1_mem _ _ _ _ _ hv.1 hv.2
        (lerp1_mem _ _ _ _ _ hu.1 hu.2 ⟨?_, ?_⟩ ⟨?_, ?_⟩)
        (lerp1_mem _ _ _ _ _ hu.1 hu.2 ⟨?_, ?_⟩ ⟨?_, ?_⟩)) <;>
      simp only [min_le_iff, le_max_iff, le_refl, true_or, or_true]

/-- The lattice theorem at the point `(2, -3, 5)` and at the offset `1/2`. -/
theorem perlin3D_lattice_witness :
    perlin3D (2 : ℚ) (-3) 5 = hash3 2 (-3) 5 ∧
      0 ≤ smoothstep1 (1 / 2 : ℚ) ∧ smoothstep1 (1 / 2 : ℚ) < 1 := by
  obtain ⟨hlat, -, hease, -⟩ := @perlin3D_lattice ℚ _ _
  have := hlat 2 (-3) 5
  push_cast at this
  exact ⟨this, hease (1 / 2) (by norm_num) (by norm_num)⟩

/-- With at least two bins, the bin of an in-range sample is the last one
exactly when the sample is `maxVal`. -/
theorem specBin_eq_last_iff {K : Type} [LinearOrderedField K] [FloorRing K] (bins : Int)
    (minVal maxVal v : K) (hbins : 2 ≤ bins) (hlt : minVal < maxVal) (h2 : v ≤ maxVal) :
    specBin bins minVal maxVal v = bins - 1 ↔ v = maxVal := by
  constructor
  · intro h
    by_contra hne
    have hv : v < maxVal := lt_of_le_of_ne h2 hne
    have hr : 0 < maxVal - minVal := sub_pos.mpr hlt
    have hq : (v - minVal) / (maxVal - minVal) < 1 := (div_lt_one hr).mpr (by linarith)
    have hb : (0 : K) < (bins : K) - 1 := by
      have : (1 : K) < (bins : K) := by exact_mod_cast (by omega : (1 : Int) < bins)
      linarith
    have ha : (v - minVal) / (maxVal - minVal) * ((bins : K) - 1) < ((bins - 1 : Int) : K) := by
      push_cast
      nlinarith
    have hfl : ⌊(v - minVal) / (maxVal - minVal) * ((bins : K) - 1)⌋ < bins - 1 :=
      Int.floor_lt.mpr ha
    unfold specBin at h
    have hmin : min (bins - 1) ⌊(v - minVal) / (maxVal - minVal) * ((bins : K) - 1)⌋ <
        bins - 1 := lt_of_le_of_lt (min_le_right _ _) hfl
    have hmax : max 0 (min (bins - 1) ⌊(v - minVal) / (maxVal - minVal) * ((bins : K) - 1)⌋) <
        bins - 1 := max_lt (by omega) hmin
    omega
  · rintro rfl
    exact specBin_maxVal bins minVal v (by omega) hlt

/-- C20. The last bin holds only the samples equal to `maxVal`: with
`size > 0`, `bins ≥ 2` and `minVal < maxVal`, the raw bin of an in-range
sample lies in `[0, bins - 1]`, so the clamp does not change it, and it is
`bins - 1` if and only if the sample is `maxVal`; after the call
`histogram[bins - 1]` is the number of samples equal to `maxVal`. -/
theorem CalculateHistogram_last_bin_iff {K : Type} [LinearOrderedField K] [FloorRing K]
    (d : List K) (h : List Int) (size bins : Int) (minVal maxVal : K) (hsize : 0 < size)
    (hd : (d.length : Int) = size) (hbins : 2 ≤ bins) (hh : bins ≤ (h.length : Int))
    (hlt : minVal < maxVal) :
    (∀ v : K, minVal ≤ v → v ≤ maxVal →
      (0 ≤ cast_int ((v - minVal) / (maxVal - minVal) * ((bins - 1 : Int) : K)) ∧
        cast_int ((v - minVal) / (maxVal - minVal) * ((bins - 1 : Int) : K)) ≤ bins - 1) ∧
      max 0 (min (bins - 1)
          (cast_int ((v - minVal) / (maxVal - minVal) * ((bins - 1 : Int) : K)))) =
        cast_int ((v - minVal) / (maxVal - minVal) * ((bins - 1 : Int) : K)) ∧
      (cast_int ((v - minVal) / (maxVal - minVal) * ((bins - 1 : Int) : K)) = bins - 1 ↔
        v = maxVal)) ∧
    ∃ h', CalculateHistogram (.buf d) size (.buf h) bins minVal maxVal = some (.buf h') ∧
      h'[(bins - 1).toNat]? = some ((d.countP (fun v => decide (v = maxVal)) : Nat) : Int) := by
  constructor
  · intro v h1 h2
    obtain ⟨ha0, ha1⟩ := scaled_mem bins minVal maxVal v (by omega) hlt h1 h2
    have hraw0 : 0 ≤ cast_int ((v - minVal) / (maxVal - minVal) * ((bins - 1 : Int) : K)) := by
      rw [cast_int, if_pos ha0]; exact Int.floor_nonneg.mpr ha0
    have hraw1 : cast_int ((v - minVal) / (maxVal - minVal) * ((bins - 1 : Int) : K)) ≤
        bins - 1 := by
      rw [cast_int, if_pos ha0]
      exact Int.floor_le_iff.mpr (lt_of_le_of_lt ha1 (by push_cast; linarith))
    have hclamp : max 0 (min (bins - 1)
        (cast_int ((v - minVal) / (maxVal - minVal) * ((bins - 1 : Int) : K)))) =
        cast_int ((v - minVal) / (maxVal - minVal) * ((bins - 1 : Int) : K)) := by
      rw [min_eq_right hraw1, max_eq_right hraw0]
    refine ⟨⟨hraw0, hraw1⟩, hclamp, ?_⟩
    rw [← hclamp, (code_bin_eq bins minVal maxVal v (by omega) hlt h1 h2).1]
    exact specBin_eq_last_iff bins minVal maxVal v hbins hlt h2
  · obtain ⟨h', hrun, -, hcells, -⟩ :=
      CalculateHistogram_run d h size bins minVal maxVal hsize hd (by omega) hh hlt
    refine ⟨h', hrun, ?_⟩
    rw [hcells (bins - 1).toNat (by omega)]
    congr 2
    apply List.countP_congr
    intro v _
    simp only [decide_eq_true_eq]
    constructor
    · rintro ⟨h1, h2, h3⟩
      rw [Int.toNat_of_nonneg (by omega)] at h3
      exact (specBin_eq_last_iff bins minVal maxVal v hbins hlt h2).mp h3
    · rintro rfl
      refine ⟨hlt.le, le_rfl, ?_⟩
      rw [Int.toNat_of_nonneg (by omega)]
      exact specBin_maxVal bins minVal v (by omega) hlt

/-- The last-bin theorem on the samples `[0, 10, 9.99, 10]` with 10 bins over
`[0, 10]`: cell 9 ends at 2. -/
theorem CalculateHistogram_last_bin_iff_witness :
    ∃ h', CalculateHistogram (.buf [0, 10, 999 / 100, 10] : Ptr ℚ) 4
        (.buf (List.replicate 10 7)) 10 0 10 = some (.buf h') ∧ h'[9]? = some 2 := by
  obtain ⟨-, h', hrun, hcell⟩ := CalculateHistogram_last_bin_iff
    ([0, 10, 999 / 100, 10] : List ℚ) (List.replicate 10 7) 4 10 0 10
    (by decide) (by rfl) (by decide) (by simp) (by norm_num)
  refine ⟨h', hrun, ?_⟩
  have h9 : ((10 : Int) - 1).toNat = 9 := by decide
  rw [h9] at hcell
  rw [hcell]
  decide!

end MedicalImageProcessing
